import Mathlib

/-
Verification of the smart-date resolution engine of `publish`
(src/publish/_smartdates.py, with `DateContext` from src/publish/types.py and
`ValidationError` from src/publish/exceptions.py, plus the caller-side
`_add_previous_keys` from src/publish/_discover.py).

Python strings are modelled as `List Char` (with `String` wrappers at the
boundary); `datetime.date`/`datetime.datetime` as a proleptic-Gregorian
ordinal (`Date`) optionally paired with a wall-clock `Time`; dictionaries as
association lists where insertion prepends and lookup takes the first match
(so the newest binding wins, matching dict overwrite semantics as observed
by lookups).  The unbounded `while` loops of `_FirstAvailableNode.resolve`
and `_DayOfGivenWeekNode.resolve` are modelled with an explicit step budget
(`scanWhile`); a result of `none` at the top level means the Python program
is still inside such a loop after that many iterations.  The depth-first
topological sort also carries a budget, but `nodes.length + 1` is proved
sufficient below, so `topologicalSort` itself is budget-free.
-/

set_option autoImplicit false

namespace Publish

/-! ## Characters and strings (Python `str` as `List Char`) -/

/-- Python's `\w` character class on ASCII input: `[A-Za-z0-9_]`. -/
def isWordChar (c : Char) : Bool :=
  c.isAlphanum || c = '_'

/-- The character class `[\w\.]` used for field-name tokens. -/
def isWordDot (c : Char) : Bool :=
  isWordChar c || c = '.'

/-- Lower-casing a single character, as Python `str.lower` on ASCII. -/
def lcC (c : Char) : Char := c.toLower

/-- Lower-casing a string, as Python `str.lower` on ASCII. -/
def lc (s : List Char) : List Char := s.map lcC

/-- Split on single spaces, keeping empty pieces: Python `s.split(" ")`,
which is also how a regex made of tokens separated by single literal
spaces decomposes its subject. -/
def splitOnSpace : List Char → List (List Char)
  | [] => [[]]
  | c :: rest =>
    match splitOnSpace rest with
    | [] => [[]]
    | t :: ts => if c = ' ' then [] :: t :: ts else (c :: t) :: ts

/-- The numeric value of a digit character. -/
def digitVal (c : Char) : Nat := c.toNat - ('0').toNat

/-- Python `int(s)` on a nonempty, all-digit string. -/
def natFromDigits (s : List Char) : Nat :=
  s.foldl (fun a c => a * 10 + digitVal c) 0

/-- Python `s.replace(",", " ")`: a single-character replace is a map. -/
def replaceComma (s : List Char) : List Char :=
  s.map (fun c => if c = ',' then ' ' else c)

/-- Python `s.replace(" or ", " ")`: left-to-right, non-overlapping,
scanning resumes after each replacement. -/
def replaceOr : List Char → List Char
  | ' ' :: 'o' :: 'r' :: ' ' :: rest => ' ' :: replaceOr rest
  | c :: rest => c :: replaceOr rest
  | [] => []

/-! ## Dates, times and date-times -/

/-- A `datetime.date`, by its proleptic-Gregorian ordinal
(`date.toordinal`; day 1 is 0001-01-01, a Monday). -/
structure Date where
  ord : Int
  deriving DecidableEq, Repr

/-- A `datetime.time` (seconds granularity; the engine never produces
sub-second values). -/
structure Time where
  hour : Nat
  minute : Nat
  second : Nat
  deriving DecidableEq, Repr

/-- `datetime.time(h, m, s)`, which raises `ValueError` out of range. -/
def mkTime (h m s : Nat) : Option Time :=
  if h ≤ 23 ∧ m ≤ 59 ∧ s ≤ 59 then some ⟨h, m, s⟩ else none

/-- A value of the working environment: a `datetime.date` or a
`datetime.datetime` (which Python treats as a subclass of `date`). -/
inductive DateValue where
  | date (d : Date)
  | datetime (d : Date) (t : Time)
  deriving DecidableEq, Repr

/-- The date component (`datetime.combine` keys on it). -/
def DateValue.dateOf : DateValue → Date
  | .date d => d
  | .datetime d _ => d

/-- Whether the value is a plain `date` (Python's
`type(x) is datetime.date`, which is false for `datetime`). -/
def DateValue.isPlainDate : DateValue → Bool
  | .date _ => true
  | .datetime _ _ => false

/-- `x.weekday()`: Monday is 0.  Ordinal 1 is a Monday, so this is
`(ordinal + 6) mod 7`. -/
def Date.weekday (d : Date) : Nat :=
  ((d.ord + 6) % 7).toNat

/-- `x.weekday()` on a date or datetime. -/
def DateValue.weekday (v : DateValue) : Nat :=
  v.dateOf.weekday

/-- Adding `timedelta(days=k)`: shifts the ordinal, preserves the
date/datetime type and any time-of-day. -/
def DateValue.addDays (v : DateValue) (k : Int) : DateValue :=
  match v with
  | .date d => .date ⟨d.ord + k⟩
  | .datetime d t => .datetime ⟨d.ord + k⟩ t

/-- Seconds after midnight of a `Time`. -/
def Time.toSeconds (t : Time) : Int :=
  t.hour * 3600 + t.minute * 60 + t.second

/-- Adding `timedelta(hours=k)`.  On a plain `date` only the day part of
the normalized timedelta acts (`floor(k / 24)` days); on a `datetime` the
full clock moves. -/
def DateValue.addHours (v : DateValue) (k : Int) : DateValue :=
  match v with
  | .date d => .date ⟨d.ord + Int.fdiv (k * 3600) 86400⟩
  | .datetime d t =>
    let total : Int := d.ord * 86400 + t.toSeconds + k * 3600
    let rem : Nat := (total % 86400).toNat
    .datetime ⟨Int.fdiv total 86400⟩ ⟨rem / 3600, rem % 3600 / 60, rem % 60⟩

/-- `_combine_date_and_time`: with a time, build a datetime from the date
part (overwriting any existing time-of-day); without one, pass through. -/
def combineDateAndTime (v : DateValue) (t : Option Time) : DateValue :=
  match t with
  | some tm => .datetime v.dateOf tm
  | none => v

/-! ### The proleptic Gregorian calendar (CPython `_ymd2ord`) -/

/-- CPython `_is_leap`. -/
def isLeapYear (y : Nat) : Bool :=
  y % 4 = 0 && (y % 100 ≠ 0 || y % 400 = 0)

/-- CPython `_days_in_month`. -/
def daysInMonth (y m : Nat) : Nat :=
  if m = 2 then (if isLeapYear y then 29 else 28)
  else if m = 4 ∨ m = 6 ∨ m = 9 ∨ m = 11 then 30
  else 31

/-- CPython `_days_before_month`. -/
def daysBeforeMonth (y m : Nat) : Nat :=
  (List.range (m - 1)).foldl (fun a i => a + daysInMonth y (i + 1)) 0

/-- CPython `_days_before_year`. -/
def daysBeforeYear (y : Nat) : Nat :=
  (y - 1) * 365 + (y - 1) / 4 - (y - 1) / 100 + (y - 1) / 400

/-- CPython `_ymd2ord`, hence `date(y, m, d)`. -/
def mkDate (y m d : Nat) : Date :=
  ⟨(daysBeforeYear y + daysBeforeMonth y m + d : Nat)⟩

/-! ## Errors, context, raw values -/

/-- The exception surface of the engine.  `src/publish/exceptions.py`
defines the single class `ValidationError` used for every engine failure;
`keyError` models Python's built-in `KeyError` escaping from an uncaught
dictionary access (shown unreachable below); `modelFuel` is an artifact of
the bounded depth-first search model and is proved unreachable. -/
inductive PubError where
  | validationError (msg : String)
  | keyError (key : String)
  | modelFuel
  deriving DecidableEq, Repr

/-- `DateContext` from src/publish/types.py: optional known dates and an
optional start of week one.  There is no further field. -/
structure DateContext where
  known : Option (List (String × DateValue)) := none
  startOfWeekOne : Option Date := none
  deriving DecidableEq, Repr

/-- A raw batch value: a smart-date string, or something that is already a
`date`/`datetime`. -/
inductive RawValue where
  | str (s : String)
  | value (v : DateValue)
  deriving DecidableEq, Repr

/-! ## Nodes (the parsed rule variants) -/

/-- The five node types of `_smartdates.py`.  `beforeOrAfter` keeps the
raw matched token, as the Python nodes do (it is lower-cased again at
resolve time). -/
inductive Node where
  | dateNode (value : DateValue)
  | direct (relativeTo : String) (time : Option Time)
  | delta (isHoursDelta : Bool) (amount : Int) (relativeTo : String) (time : Option Time)
  | firstAvailable (daysOfTheWeek : List Nat) (beforeOrAfter : String)
      (relativeTo : String) (time : Option Time)
  | dayOfGivenWeek (dayOfTheWeek : Nat) (weekNumber : Nat) (time : Option Time)
  deriving DecidableEq, Repr

/-- The `relative_to` attribute, absent on `_DateNode` and
`_DayOfGivenWeekNode` (`hasattr` in `_topological_sort`). -/
def Node.relativeTo? : Node → Option String
  | .direct r _ => some r
  | .delta _ _ r _ => some r
  | .firstAvailable _ _ r _ => some r
  | _ => none

/-! ## Parsing -/

/-- Message of the `ValidationError` raised for an unparseable string. -/
def invalidSmartDateMsg (s : String) : String :=
  "The smart date string is invalid: " ++ s

/-- Message for a reference to a field not in the environment. -/
def unknownFieldMsg (r : String) : String :=
  "Reference of an unknown field: " ++ r

/-- Message raised by `_topological_sort` on a cycle. -/
def cycleMsg : String := "Cycle detected in smart date references."

/-- Message for an hours delta applied to a plain date. -/
def hoursDateMsg : String :=
  "Cannot use hours delta in reference to a date (must be a datetime)."

/-- Message for an hours delta combined with an explicit time. -/
def hoursTimeMsg : String :=
  "Cannot use hours delta and specify an exact time."

/-- Message for a week reference without a week-one anchor. -/
def weekOneMsg : String := "Start date of week one was not provided."

/-- Message for a syntactically well-placed but out-of-range time. -/
def invalidTimeMsg (h1 h2 m1 m2 s1 s2 : Char) : String :=
  "Invalid time: " ++ ([h1, h2, ':', m1, m2, ':', s1, s2]).asString ++ "."

/-- Message for an unrecognized weekday name. -/
def invalidDayMsg (s : String) : String := "Invalid day of week: " ++ s

/-- `_parse_and_remove_time`: peel a trailing `" at HH:MM:SS"` (the `at`
case-insensitive), validating the time; no trailing time is fine. -/
def stripTime (s : List Char) : Except PubError (List Char × Option Time) :=
  match s.reverse with
  | s2 :: s1 :: c2 :: m2 :: m1 :: c1 :: h2 :: h1 :: sp2 :: t :: a :: sp1 :: rest =>
    if sp1 = ' ' ∧ lcC a = 'a' ∧ lcC t = 't' ∧ sp2 = ' ' ∧ c1 = ':' ∧ c2 = ':'
        ∧ h1.isDigit ∧ h2.isDigit ∧ m1.isDigit ∧ m2.isDigit ∧ s1.isDigit ∧ s2.isDigit then
      match mkTime (digitVal h1 * 10 + digitVal h2) (digitVal m1 * 10 + digitVal m2)
          (digitVal s1 * 10 + digitVal s2) with
      | some tm => .ok (rest.reverse, some tm)
      | none => .error (.validationError (invalidTimeMsg h1 h2 m1 m2 s1 s2))
    else .ok (s, none)
  | _ => .ok (s, none)

/-- `_parse_day_of_the_week`: full English weekday names, case-insensitive
(`getattr(_DaysOfTheWeek, s.upper())`). -/
def parseDayName (w : List Char) : Except PubError Nat :=
  if lc w = ("monday").data then .ok 0
  else if lc w = ("tuesday").data then .ok 1
  else if lc w = ("wednesday").data then .ok 2
  else if lc w = ("thursday").data then .ok 3
  else if lc w = ("friday").data then .ok 4
  else if lc w = ("saturday").data then .ok 5
  else if lc w = ("sunday").data then .ok 6
  else .error (.validationError (invalidDayMsg w.asString))

/-- The weekday-name set comprehension of `_FirstAvailableNode.parse`,
evaluated left to right, erroring on the first unrecognized name. -/
def parseDayNames : List (List Char) → Except PubError (List Nat)
  | [] => .ok []
  | w :: ws => do
    let d ← parseDayName w
    let ds ← parseDayNames ws
    .ok (d :: ds)

/-- `_DirectReferenceNode.parse`: after removing a time, the whole rest
must match `([\w\.]+)$`.  `.ok none` models `_MatchError`. -/
def directParse (cs : List Char) : Except PubError (Option Node) := do
  let (rest, time) ← stripTime cs
  if rest ≠ [] ∧ rest.all isWordDot then
    .ok (some (.direct rest.asString time))
  else
    .ok none

/-- `_DeltaReferenceNode.parse`: `^(\d+) (hour|day)[s]{0,1} (after|before)
([\w\.]+)$`, case-insensitively.  Since none of the four tokens can contain
a space, matching is exactly a four-way split on single spaces. -/
def deltaParse (cs : List Char) : Except PubError (Option Node) := do
  let (rest, time) ← stripTime cs
  match splitOnSpace rest with
  | [n, u, dir, r] =>
    if n ≠ [] ∧ n.all Char.isDigit
        ∧ (lc u = ("hour").data ∨ lc u = ("hours").data
            ∨ lc u = ("day").data ∨ lc u = ("days").data)
        ∧ (lc dir = ("after").data ∨ lc dir = ("before").data)
        ∧ r ≠ [] ∧ r.all isWordDot then
      let factor : Int := if lc dir = ("before").data then -1 else 1
      let isHours : Bool := lc u = ("hour").data ∨ lc u = ("hours").data
      .ok (some (.delta isHours (factor * (natFromDigits n : Int)) r.asString time))
    else
      .ok none
  | _ => .ok none

/-- `_FirstAvailableNode.parse`: strip a time, replace `","` and `" or "`
by spaces, then match `^first ([\w ]+) (after|before) ([\w\.]+)$`
case-insensitively.  The last two tokens of the split are forced (neither
can contain a space), the weekday-list group is everything in between and
must be at least one character of `[\w ]`; the weekday names are the
nonempty middle tokens. -/
def firstAvailMatch (tokens : List (List Char)) (time : Option Time) :
    Except PubError (Option Node) :=
  match tokens.reverse with
  | r :: dir :: revMost =>
    match revMost.reverse with
    | f :: middles =>
      if lc f = ("first").data
          ∧ (lc dir = ("after").data ∨ lc dir = ("before").data)
          ∧ r ≠ [] ∧ r.all isWordDot
          ∧ middles.all (fun w => w.all isWordChar)
          ∧ List.intercalate [' '] middles ≠ [] then
        let names := middles.filter (fun w => w ≠ [])
        match parseDayNames names with
        | .error e => .error e
        | .ok days =>
          .ok (some (.firstAvailable days dir.asString r.asString time))
      else
        .ok none
    | [] => .ok none
  | _ => .ok none

def firstAvailableParse (cs : List Char) : Except PubError (Option Node) := do
  let (rest, time) ← stripTime cs
  firstAvailMatch (splitOnSpace (replaceOr (replaceComma rest))) time

/-- `_DayOfGivenWeekNode.parse`: lower-case, strip a time, then match
`([\w]+) of week (\d+)$`.  Again exactly four space-separated tokens. -/
def dayOfGivenWeekParse (cs : List Char) : Except PubError (Option Node) := do
  let (rest, time) ← stripTime (lc cs)
  match splitOnSpace rest with
  | [w, o, wk, num] =>
    if w ≠ [] ∧ w.all isWordChar ∧ o = ("of").data ∧ wk = ("week").data
        ∧ num ≠ [] ∧ num.all Char.isDigit then
      match parseDayName w with
      | .error e => .error e
      | .ok day => .ok (some (.dayOfGivenWeek day (natFromDigits num) time))
    else
      .ok none
  | _ => .ok none

/-- `_parse`: guess and check through the node types in their fixed order.
`_DateNode` matches exactly the non-string inputs, so for a string the
remaining four grammars are tried; if none matches, `ValidationError`. -/
def parseNode (raw : RawValue) : Except PubError Node :=
  match raw with
  | .value v => .ok (.dateNode v)
  | .str s =>
    match directParse s.data with
    | .error e => .error e
    | .ok (some n) => .ok n
    | .ok none =>
      match deltaParse s.data with
      | .error e => .error e
      | .ok (some n) => .ok n
      | .ok none =>
        match firstAvailableParse s.data with
        | .error e => .error e
        | .ok (some n) => .ok n
        | .ok none =>
          match dayOfGivenWeekParse s.data with
          | .error e => .error e
          | .ok (some n) => .ok n
          | .ok none => .error (.validationError (invalidSmartDateMsg s))

/-- `{k: _parse(v) for k, v in smart_dates.items()}`: parse every entry in
order, propagating the first failure. -/
def parseAll : List (String × RawValue) → Except PubError (List (String × Node))
  | [] => .ok []
  | (k, v) :: rest => do
    let n ← parseNode v
    let ns ← parseAll rest
    .ok ((k, n) :: ns)

/-! ## Evaluation -/

/-- The `while not found: step` loops of the resolvers, with an explicit
iteration budget; `none` means the loop is still running after `fuel`
iterations (the Python loop is unbounded). -/
def scanWhile {α : Type} (fuel : Nat) (found : α → Bool) (step : α → α) (x : α) : Option α :=
  match fuel with
  | 0 => if found x then some x else none
  | f + 1 => if found x then some x else scanWhile f found step (step x)

/-- The scan direction of `_FirstAvailableNode.resolve`:
`1 if self.before_or_after.lower() == "after" else -1`. -/
def afterSign (boa : String) : Int :=
  if lc (boa.data) = ("after").data then 1 else -1

/-- `node.resolve(univ, date_context)`.  `none` means a calendar scan
has not finished within `fuel` iterations. -/
def Node.resolve (node : Node) (fuel : Nat) (univ : List (String × DateValue))
    (ctx : DateContext) : Option (Except PubError DateValue) :=
  match node with
  | .dateNode v => some (.ok v)
  | .direct r t =>
    match univ.lookup r with
    | none => some (.error (.validationError (unknownFieldMsg r)))
    | some v => some (.ok (combineDateAndTime v t))
  | .delta isHours amount r t =>
    match univ.lookup r with
    | none => some (.error (.validationError (unknownFieldMsg r)))
    | some v =>
      let moved := if isHours then v.addHours amount else v.addDays amount
      if moved.isPlainDate ∧ isHours then
        some (.error (.validationError hoursDateMsg))
      else if t.isSome ∧ isHours then
        some (.error (.validationError hoursTimeMsg))
      else
        some (.ok (combineDateAndTime moved t))
  | .firstAvailable days boa r t =>
    let sign : Int := afterSign boa
    match univ.lookup r with
    | none => some (.error (.validationError (unknownFieldMsg r)))
    | some v =>
      match scanWhile fuel (fun w => days.contains w.weekday)
          (fun w => w.addDays sign) (v.addDays sign) with
      | none => none
      | some w => some (.ok (combineDateAndTime w t))
  | .dayOfGivenWeek day wk t =>
    match ctx.startOfWeekOne with
    | none => some (.error (.validationError weekOneMsg))
    | some anchor =>
      let weekStart : Date := ⟨anchor.ord + 7 * ((wk : Int) - 1)⟩
      match scanWhile fuel (fun d => d.weekday = day)
          (fun d => ⟨d.ord + 1⟩) weekStart with
      | none => none
      | some d => some (.ok (combineDateAndTime (.date d) t))

/-! ## Topological sort -/

/-- The reversed dependency edges used by `_topological_sort`: `children[c]`
holds every batch key whose node's `relative_to` is `c` (the Python build
loop guards on `relative_to in nodes`, which is implied whenever `c` is
itself a batch key, the only case in which `children[c]` is read). -/
def childrenOf (nodes : List (String × Node)) (c : String) : List String :=
  nodes.filterMap fun kn =>
    match kn.2.relativeTo? with
    | some r => if r = c then some kn.1 else none
    | none => none

/-- One pass over a node's child list.  `vis` is the recursive visit at
the current budget; `gray` is the on-stack set (`start` minus `finish`),
`black` the finished list, newest first. -/
def childFold (vis : String → List String → Except PubError (List String))
    (gray : List String) : List String → List String → Except PubError (List String)
  | [], black => .ok black
  | c :: cs, black =>
    if c ∈ gray then .error (.validationError cycleMsg)
    else if c ∈ black then childFold vis gray cs black
    else
      match vis c black with
      | .error e => .error e
      | .ok black2 => childFold vis gray cs black2

/-- `_dfs(source)`: push onto the stack, traverse children, finish.  The
budget only bounds recursion depth; `nodes.length + 1` is proved
sufficient below. -/
def visitFuel (nodes : List (String × Node)) : Nat → String → List String → List String →
    Except PubError (List String)
  | 0, _, _, _ => .error .modelFuel
  | f + 1, u, gray, black =>
    match childFold (fun c bl => visitFuel nodes f c (u :: gray) bl) (u :: gray)
        (childrenOf nodes u) black with
    | .error e => .error e
    | .ok bl => .ok (u :: bl)

/-- The top-level loop of `_topological_sort`: start a search from every
key not yet finished. -/
def visitAll (nodes : List (String × Node)) (fuel : Nat) :
    List String → List String → Except PubError (List String)
  | [], black => .ok black
  | k :: ks, black =>
    if k ∈ black then visitAll nodes fuel ks black
    else
      match visitFuel nodes fuel k [] black with
      | .error e => .error e
      | .ok bl => visitAll nodes fuel ks bl

/-- `_topological_sort`: keys in decreasing finish time (our finished list
is already newest-first), restricted to the batch keys. -/
def topologicalSort (nodes : List (String × Node)) : Except PubError (List String) :=
  match visitAll nodes (nodes.length + 1) (nodes.map Prod.fst) [] with
  | .error e => .error e
  | .ok black => .ok (black.filter (fun x => (nodes.lookup x).isSome))

/-! ## The resolution facade -/

/-- The evaluation loop of `resolve_smart_dates`: resolve each key in
topological order, writing the result into the shared univ.  An absent
node would be Python's uncaught `KeyError` (unreachable). -/
def resolveList (fuel : Nat) (nodes : List (String × Node)) (ctx : DateContext) :
    List String → List (String × DateValue) →
    Option (Except PubError (List (String × DateValue)))
  | [], univ => some (.ok univ)
  | k :: ks, univ =>
    match nodes.lookup k with
    | none => some (.error (.keyError k))
    | some n =>
      match n.resolve fuel univ ctx with
      | none => none
      | some (.error e) => some (.error e)
      | some (.ok v) => resolveList fuel nodes ctx ks ((k, v) :: univ)

/-- The final `{k: univ[k] for k in smart_dates}`. -/
def lookupAllKeys : List (String × RawValue) → List (String × DateValue) →
    Except PubError (List (String × DateValue))
  | [], _ => .ok []
  | (k, _) :: rest, univ =>
    match univ.lookup k with
    | none => .error (.keyError k)
    | some v => do
      let r ← lookupAllKeys rest univ
      .ok ((k, v) :: r)

/-- `resolve_smart_dates(smart_dates, date_context=None)`.  The working
univ is seeded from a copy of `date_context.known` (or `{}`); in this
persistent model the copy shows up as the univ being a value separate
from the context. -/
def resolveSmartDatesF (fuel : Nat) (smartDates : List (String × RawValue))
    (dateContext : Option DateContext) :
    Option (Except PubError (List (String × DateValue))) :=
  let ctx := dateContext.getD ⟨none, none⟩
  let univ0 := ctx.known.getD []
  match parseAll smartDates with
  | .error e => some (.error e)
  | .ok nodes =>
    match topologicalSort nodes with
    | .error e => some (.error e)
    | .ok order =>
      match resolveList fuel nodes ctx order univ0 with
      | none => none
      | some (.error e) => some (.error e)
      | some (.ok univ) =>
        match lookupAllKeys smartDates univ with
        | .error e => some (.error e)
        | .ok result => some (.ok result)

/-- The same pipeline with the caller-owned objects (`smart_dates` and
`date_context`) threaded through and handed back, mirroring that the
source only ever writes to its own fresh `univ` (seeded from
`known.copy()`) and never to the arguments. -/
def resolveSmartDatesMut (fuel : Nat) (smartDates : List (String × RawValue))
    (dateContext : Option DateContext) :
    Option ((Except PubError (List (String × DateValue)))
      × List (String × RawValue) × Option DateContext) :=
  let ctx := dateContext.getD ⟨none, none⟩
  let univ0 := ctx.known.getD []
  match parseAll smartDates with
  | .error e => some (.error e, smartDates, dateContext)
  | .ok nodes =>
    match topologicalSort nodes with
    | .error e => some (.error e, smartDates, dateContext)
    | .ok order =>
      match resolveList fuel nodes ctx order univ0 with
      | none => none
      | some (.error e) => some (.error e, smartDates, dateContext)
      | some (.ok univ) =>
        match lookupAllKeys smartDates univ with
        | .error e => some (.error e, smartDates, dateContext)
        | .ok result => some (.ok result, smartDates, dateContext)

/-! ## The caller-side injection of `previous.metadata.*`
(`_add_previous_keys` in src/publish/_discover.py) -/

/-- A metadata value as seen by `_add_previous_keys`: only
`datetime.date` instances (dates and datetimes) are forwarded. -/
inductive MetaValue where
  | dateVal (v : DateValue)
  | other
  deriving DecidableEq, Repr

/-- The slice of `Schema` that `_add_previous_keys` consults. -/
structure Schema where
  isOrdered : Bool
  deriving DecidableEq, Repr

/-- The slice of `Publication` that `_add_previous_keys` consults. -/
structure Publication where
  metadata : List (String × MetaValue)
  deriving DecidableEq, Repr

/-- The slice of `Collection` that `_add_previous_keys` consults. -/
structure Collection where
  schema : Schema
  publications : List (String × Publication)
  deriving DecidableEq, Repr

/-- `_add_previous_keys(date_context, collection)`: for an ordered
collection with at least one publication, copy the context and add every
date-valued metadata field of the most recent publication under
`previous.metadata.<name>`. -/
def addPreviousKeys (dateContext : DateContext) (collection : Collection) : DateContext :=
  if !collection.schema.isOrdered then dateContext
  else
    match collection.publications.getLast? with
    | none => dateContext
    | some (_, prevPub) =>
      let known0 := dateContext.known.getD []
      let known1 := prevPub.metadata.foldl
        (fun acc kv =>
          match kv.2 with
          | .dateVal v => ("previous.metadata." ++ kv.1, v) :: acc
          | .other => acc)
        known0
      ⟨some known1, dateContext.startOfWeekOne⟩

/-- The fold of `_add_previous_keys` over the previous publication's
metadata. -/
def prevFold (known0 : List (String × DateValue)) (meta : List (String × MetaValue)) :
    List (String × DateValue) :=
  meta.foldl
    (fun acc kv =>
      match kv.2 with
      | .dateVal v => ("previous.metadata." ++ kv.1, v) :: acc
      | .other => acc)
    known0

/-- The dependency relation of the claim: `a` depends on `b` when `a`'s
rule names `b` as its referent and `b` is itself a batch key. -/
def DepEdge (nodes : List (String × Node)) (a b : String) : Prop :=
  ((nodes.lookup a).bind Node.relativeTo? = some b) ∧ ((nodes.lookup b).isSome = true)

instance (nodes : List (String × Node)) (a b : String) : Decidable (DepEdge nodes a b) :=
  instDecidableAnd

/-- `v` occurs in the list strictly before `c` (the finished list is
newest first, so this means `v` finished after `c`). -/
def Before (bl : List String) (v c : String) : Prop :=
  ∃ p q, bl = p ++ v :: q ∧ c ∈ q

/-- Every finished node's children are finished, and finished earlier. -/
def ChildOk (nodes : List (String × Node)) (bl : List String) : Prop :=
  ∀ v, v ∈ bl → ∀ c, c ∈ childrenOf nodes v → Before bl v c

/-- Position of the first occurrence in a list. -/
def posIn (x : String) : List String → Nat
  | [] => 0
  | y :: ys => if y = x then 0 else posIn x ys + 1

/-- Decidable equality for `Except`, for evaluating concrete runs. -/
instance {E A : Type} [DecidableEq E] [DecidableEq A] : DecidableEq (Except E A) := fun x y =>
  match x, y with
  | .ok a, .ok b => decidable_of_iff (a = b) ⟨fun h => by rw [h], fun h => by injection h⟩
  | .error a, .error b => decidable_of_iff (a = b) ⟨fun h => by rw [h], fun h => by injection h⟩
  | .ok _, .error _ => isFalse (fun h => Except.noConfusion h)
  | .error _, .ok _ => isFalse (fun h => Except.noConfusion h)

/-! ## Basic arithmetic lemmas -/

theorem DateValue.isPlainDate_addHours (v : DateValue) (k : Int) :
    (v.addHours k).isPlainDate = v.isPlainDate := by
  cases v <;> rfl

theorem DateValue.isPlainDate_addDays (v : DateValue) (k : Int) :
    (v.addDays k).isPlainDate = v.isPlainDate := by
  cases v <;> rfl

theorem DateValue.addDays_zero (v : DateValue) : v.addDays 0 = v := by
  cases v <;> simp [DateValue.addDays]

theorem DateValue.addDays_addDays (v : DateValue) (a b : Int) :
    (v.addDays a).addDays b = v.addDays (a + b) := by
  cases v <;> simp [DateValue.addDays] <;> ring

theorem DateValue.iterate_addDays (s : Int) (j : Nat) (v : DateValue) :
    (fun w => DateValue.addDays w s)^[j] v = v.addDays (s * j) := by
  induction j generalizing v with
  | zero => simp [DateValue.addDays_zero]
  | succ j ih =>
    rw [Function.iterate_succ_apply, ih, DateValue.addDays_addDays]
    congr 1
    push_cast
    ring

theorem Date.weekday_le_six (d : Date) : d.weekday ≤ 6 := by
  have h7 : (0 : Int) < 7 := by omega
  have := Int.emod_lt_of_pos (d.ord + 6) h7
  have := Int.emod_nonneg (d.ord + 6) (by omega : (7 : Int) ≠ 0)
  simp only [Date.weekday]
  omega

theorem DateValue.weekday_at_most_six (v : DateValue) : v.weekday ≤ 6 :=
  Date.weekday_le_six v.dateOf

theorem DateValue.weekday_addDays (v : DateValue) (k : Int) :
    (v.addDays k).weekday = ((v.dateOf.ord + k + 6) % 7).toNat := by
  cases v <;> rfl

theorem List.contains_iff_mem (l : List Nat) (n : Nat) : l.contains n = true ↔ n ∈ l := by
  simp [List.contains, List.elem_iff]

theorem List.contains_eq_false_iff (l : List Nat) (n : Nat) : l.contains n = false ↔ n ∉ l := by
  rw [← Bool.not_eq_true, List.contains_iff_mem]

/-! ## Scan-loop lemmas -/

/-- If nothing is ever found, the scan loop never exits, whatever the
budget. -/
theorem scanWhile_none {α : Type} (found : α → Bool) (step : α → α)
    (h : ∀ y, found y = false) : ∀ (fuel : Nat) (x : α), scanWhile fuel found step x = none := by
  intro fuel
  induction fuel with
  | zero => intro x; simp [scanWhile, h x]
  | succ f ih => intro x; simp [scanWhile, h x, ih]

/-- If something is found within the budget, the scan stops at the first
hit. -/
theorem scanWhile_spec {α : Type} (found : α → Bool) (step : α → α) :
    ∀ (fuel : Nat) (x : α), (∃ i, i ≤ fuel ∧ found (step^[i] x) = true) →
      ∃ k, k ≤ fuel ∧ scanWhile fuel found step x = some (step^[k] x) ∧
        found (step^[k] x) = true ∧ ∀ j, j < k → found (step^[j] x) = false := by
  intro fuel
  induction fuel with
  | zero =>
    rintro x ⟨i, hi, hf⟩
    interval_cases i
    refine ⟨0, le_refl 0, ?_, hf, fun j hj => absurd hj (by omega)⟩
    simp only [Function.iterate_zero_apply] at hf ⊢
    simp [scanWhile, hf]
  | succ f ih =>
    rintro x ⟨i, hi, hf⟩
    by_cases hx : found x = true
    · refine ⟨0, by omega, ?_, by simpa using hx, fun j hj => absurd hj (by omega)⟩
      simp [scanWhile, hx]
    · have hx' : found x = false := by simpa using hx
      have hi0 : i ≠ 0 := by
        rintro rfl
        rw [Function.iterate_zero_apply] at hf
        rw [hf] at hx'
        exact absurd hx' (by simp)
      obtain ⟨i', rfl⟩ : ∃ i', i = i' + 1 := ⟨i - 1, by omega⟩
      rw [Function.iterate_succ_apply] at hf
      obtain ⟨k, hk, hscan, hfk, hmin⟩ := ih (step x) ⟨i', by omega, hf⟩
      refine ⟨k + 1, by omega, ?_, ?_, ?_⟩
      · simp [scanWhile, hx', hscan, Function.iterate_succ_apply]
      · rw [Function.iterate_succ_apply]; exact hfk
      · intro j hj
        match j with
        | 0 => simpa using hx'
        | j' + 1 =>
          rw [Function.iterate_succ_apply]
          exact hmin j' (by omega)

theorem Date.iterate_step (j : Nat) (d : Date) :
    (fun d : Date => (⟨d.ord + 1⟩ : Date))^[j] d = ⟨d.ord + j⟩ := by
  induction j generalizing d with
  | zero => simp
  | succ j ih =>
    rw [Function.iterate_succ_apply, ih]
    congr 1
    push_cast
    ring

/-- The week-reference resolver: with an anchor present and a genuine
weekday target, it lands on the first matching weekday at or after
`anchor + (week_number - 1) weeks`, within six steps. -/
theorem dayOfGivenWeek_eval (fuel : Nat) (univ : List (String × DateValue))
    (ctx : DateContext) (day wk : Nat) (t : Option Time) (anchor : Date)
    (hf : 7 ≤ fuel) (ha : ctx.startOfWeekOne = some anchor) (hd : day ≤ 6) :
    ∃ k : Nat, k ≤ 6 ∧
      Node.resolve (.dayOfGivenWeek day wk t) fuel univ ctx
        = some (.ok (combineDateAndTime
            (.date ⟨anchor.ord + 7 * ((wk : Int) - 1) + (k : Int)⟩) t)) ∧
      (⟨anchor.ord + 7 * ((wk : Int) - 1) + (k : Int)⟩ : Date).weekday = day ∧
      ∀ j : Nat, j < k →
        (⟨anchor.ord + 7 * ((wk : Int) - 1) + (j : Int)⟩ : Date).weekday ≠ day := by
  have hstep : ∀ (j : Nat) (d : Date), (fun d : Date => (⟨d.ord + 1⟩ : Date))^[j] d = ⟨d.ord + j⟩ :=
    Date.iterate_step
  set ws : Date := ⟨anchor.ord + 7 * ((wk : Int) - 1)⟩ with hws
  have hwd : ws.weekday ≤ 6 := Date.weekday_le_six ws
  have hex : ∃ i : Nat, i ≤ fuel ∧
      (decide (((fun d : Date => (⟨d.ord + 1⟩ : Date))^[i] ws).weekday = day)) = true := by
    refine ⟨(day + 7 - ws.weekday) % 7, by omega, ?_⟩
    rw [hstep]
    have h1 : ((ws.ord + 6) % 7).toNat = ws.weekday := rfl
    simp only [decide_eq_true_eq, Date.weekday]
    have h2 : (ws.weekday + (day + 7 - ws.weekday) % 7) % 7 = day := by omega
    omega
  obtain ⟨k, hk, hscan, hfk, hmin⟩ :=
    scanWhile_spec (fun d : Date => decide (d.weekday = day)) (fun d : Date => ⟨d.ord + 1⟩) fuel ws hex
  rw [hstep] at hscan hfk
  have hkle : k ≤ (day + 7 - ws.weekday) % 7 := by
    by_contra hgt
    have := hmin ((day + 7 - ws.weekday) % 7) (by omega)
    rw [hstep] at this
    have h1 : ((ws.ord + 6) % 7).toNat = ws.weekday := rfl
    simp only [decide_eq_false_iff_not, Date.weekday] at this
    have h2 : (ws.weekday + (day + 7 - ws.weekday) % 7) % 7 = day := by omega
    apply this
    omega
  refine ⟨k, by omega, ?_, ?_, ?_⟩
  · simp only [Node.resolve, ha, hscan]
  · simpa using hfk
  · intro j hj
    have := hmin j hj
    rw [hstep] at this
    simpa using this

/-- The first-available resolver: starting one day out in the scan
direction, it stops at the first day whose weekday is in the set, within
seven days, never on the referent's own day. -/
theorem firstAvailable_eval (fuel : Nat) (univ : List (String × DateValue))
    (ctx : DateContext) (days : List Nat) (boa r : String) (t : Option Time)
    (v : DateValue) (w : Nat) (sign : Int)
    (hf : 7 ≤ fuel) (hv : univ.lookup r = some v) (hw : w ∈ days)
    (hwall : ∀ d ∈ days, d ≤ 6)
    (hs : sign = afterSign boa) :
    ∃ k : Nat, 1 ≤ k ∧ k ≤ 7 ∧
      Node.resolve (.firstAvailable days boa r t) fuel univ ctx
        = some (.ok (combineDateAndTime (v.addDays (sign * (k : Int))) t)) ∧
      (v.addDays (sign * (k : Int))).weekday ∈ days ∧
      ∀ j : Nat, 1 ≤ j → j < k → (v.addDays (sign * (j : Int))).weekday ∉ days := by
  have hstep : ∀ (j : Nat),
      (fun x : DateValue => x.addDays sign)^[j] (v.addDays sign) = v.addDays (sign * ((j : Int) + 1)) := by
    intro j
    rw [DateValue.iterate_addDays, DateValue.addDays_addDays]
    congr 1
    ring
  have hw6 : w ≤ 6 := hwall w hw
  have hwd : v.weekday ≤ 6 := DateValue.weekday_at_most_six v
  have hs2 : sign = 1 ∨ sign = -1 := by
    rw [hs, afterSign]; split <;> simp
  -- the first index (counting from the scan start) whose weekday is `w`
  have hex : ∃ i : Nat, i ≤ 6 ∧ (v.addDays (sign * ((i : Int) + 1))).weekday = w := by
    have h1 : ((v.dateOf.ord + 6) % 7).toNat = v.weekday := rfl
    rcases hs2 with h | h
    · refine ⟨(w + 13 - v.weekday) % 7, by omega, ?_⟩
      rw [DateValue.weekday_addDays, h]
      have h2 : (v.weekday + (w + 13 - v.weekday) % 7 + 1) % 7 = w := by omega
      omega
    · refine ⟨(v.weekday + 13 - w) % 7, by omega, ?_⟩
      rw [DateValue.weekday_addDays, h]
      have h2 : (v.weekday + 14 - (v.weekday + 13 - w) % 7 - 1) % 7 = w := by omega
      have h3 : (v.weekday + 13 - w) % 7 ≤ 6 := by omega
      omega
  obtain ⟨i0, hi0, hwi0⟩ := hex
  have hexscan : ∃ i : Nat, i ≤ fuel ∧
      ((fun x : DateValue => days.contains x.weekday)
        ((fun x : DateValue => x.addDays sign)^[i] (v.addDays sign))) = true := by
    refine ⟨i0, by omega, ?_⟩
    rw [hstep i0]
    rw [List.contains_iff_mem, hwi0]
    exact hw
  obtain ⟨k, hk, hscan, hfk, hmin⟩ :=
    scanWhile_spec (fun x : DateValue => days.contains x.weekday)
      (fun x : DateValue => x.addDays sign) fuel (v.addDays sign) hexscan
  rw [hstep k] at hscan hfk
  have hkle : k ≤ i0 := by
    by_contra hgt
    have hm := hmin i0 (by omega)
    rw [hstep i0] at hm
    rw [List.contains_eq_false_iff, hwi0] at hm
    exact hm hw
  have hcast : ∀ m : Nat, ((m : Int) + 1) = (((m + 1 : Nat) : Int)) := by
    intro m; push_cast; ring
  refine ⟨k + 1, by omega, by omega, ?_, ?_, ?_⟩
  · simp only [Node.resolve, hv, ← hs, hscan, hcast k]
  · rw [hcast k] at hfk
    rw [List.contains_iff_mem] at hfk
    exact hfk
  · intro j hj1 hjk
    obtain ⟨j', rfl⟩ : ∃ j', j = j' + 1 := ⟨j - 1, by omega⟩
    have hm := hmin j' (by omega)
    rw [hstep j'] at hm
    rw [hcast j'] at hm
    rw [List.contains_eq_false_iff] at hm
    exact hm

/-! ## Character and tokenization lemmas -/

theorem charToNat_ofNatAux (n : Nat) (hv : n.isValidChar) :
    (Char.ofNatAux n hv).toNat = n := by
  unfold Char.ofNatAux Char.toNat
  simp [UInt32.toNat]

theorem charToNat_ofNat_of_valid (n : Nat) (hv : n.isValidChar) :
    (Char.ofNat n).toNat = n := by
  rw [Char.ofNat, dif_pos hv]
  exact charToNat_ofNatAux n hv

/-- `Char.toLower` either fixes its argument or produces an ASCII
lowercase letter. -/
theorem lcC_spec (c : Char) : lcC c = c ∨ (97 ≤ (lcC c).toNat ∧ (lcC c).toNat ≤ 122) := by
  have hdef : lcC c = if c.toNat ≥ 65 ∧ c.toNat ≤ 90 then Char.ofNat (c.toNat + 32) else c := rfl
  rw [hdef]
  by_cases h : c.toNat ≥ 65 ∧ c.toNat ≤ 90
  · right
    rw [if_pos h, charToNat_ofNat_of_valid (c.toNat + 32) (Or.inl (by omega))]
    omega
  · left
    rw [if_neg h]

theorem lcC_ne_space {c : Char} (h : c ≠ ' ') : lcC c ≠ ' ' := by
  rcases lcC_spec c with heq | ⟨h1, h2⟩
  · rw [heq]; exact h
  · intro hc
    rw [hc] at h1
    exact absurd h1 (by decide)

theorem lcC_ne_colon {c : Char} (h : c ≠ ':') : lcC c ≠ ':' := by
  rcases lcC_spec c with heq | ⟨h1, h2⟩
  · rw [heq]; exact h
  · intro hc
    rw [hc] at h1
    exact absurd h1 (by decide)

theorem isDigit_ne_colon {c : Char} (h : c.isDigit = true) : c ≠ ':' := by
  intro hc
  subst hc
  exact absurd h (by decide)

theorem isDigit_ne_space {c : Char} (h : c.isDigit = true) : c ≠ ' ' := by
  intro hc
  subst hc
  exact absurd h (by decide)

theorem isWordDot_ne_colon {c : Char} (h : isWordDot c = true) : c ≠ ':' := by
  intro hc
  subst hc
  exact absurd h (by decide)

theorem isWordDot_ne_space {c : Char} (h : isWordDot c = true) : c ≠ ' ' := by
  intro hc
  subst hc
  exact absurd h (by decide)

theorem splitOnSpace_ne_nil (s : List Char) : splitOnSpace s ≠ [] := by
  cases s with
  | nil => simp [splitOnSpace]
  | cons c rest =>
    show (match splitOnSpace rest with
      | [] => [[]]
      | t :: ts => if c = ' ' then [] :: t :: ts else (c :: t) :: ts) ≠ []
    cases splitOnSpace rest with
    | nil => simp
    | cons t ts => by_cases hc : c = ' ' <;> simp [hc]

theorem splitOnSpace_no_space (a : List Char) (h : ∀ c ∈ a, c ≠ ' ') :
    splitOnSpace a = [a] := by
  induction a with
  | nil => rfl
  | cons c rest ih =>
    have hc : c ≠ ' ' := h c (by simp)
    have hr := ih (fun x hx => h x (by simp [hx]))
    show (match splitOnSpace rest with
      | [] => [[]]
      | t :: ts => if c = ' ' then [] :: t :: ts else (c :: t) :: ts) = [c :: rest]
    rw [hr]
    simp [hc]

theorem splitOnSpace_append (a b : List Char) (h : ∀ c ∈ a, c ≠ ' ') :
    splitOnSpace (a ++ ' ' :: b) = a :: splitOnSpace b := by
  induction a with
  | nil =>
    cases hb : splitOnSpace b with
    | nil => exact absurd hb (splitOnSpace_ne_nil b)
    | cons t ts =>
      show (match splitOnSpace b with
        | [] => [[]]
        | t :: ts => if ' ' = ' ' then [] :: t :: ts else (' ' :: t) :: ts) = [] :: t :: ts
      rw [hb]
      simp
  | cons c rest ih =>
    have hc : c ≠ ' ' := h c (by simp)
    have hih := ih (fun x hx => h x (by simp [hx]))
    show (match splitOnSpace (rest ++ ' ' :: b) with
      | [] => [[]]
      | t :: ts => if c = ' ' then [] :: t :: ts else (c :: t) :: ts)
      = (c :: rest) :: splitOnSpace b
    rw [hih]
    simp [hc]

/-- With no colon anywhere, `_parse_and_remove_time` finds no time
suffix and returns its input. -/
theorem stripTime_of_no_colon (s : List Char) (h : ∀ c ∈ s, c ≠ ':') :
    stripTime s = .ok (s, none) := by
  unfold stripTime
  split
  next s2 s1 c2 m2 m1 c1 h2 h1 sp2 t a sp1 rest heq =>
    rw [if_neg]
    intro hcond
    have hc1 : c1 = ':' := hcond.2.2.2.2.1
    have hmem : c1 ∈ s := by
      rw [← List.mem_reverse, heq]
      simp
    exact h c1 hmem hc1
  next => rfl

/-- If the first token starts with a character that does not lower-case
to `f`, the first-available grammar cannot match. -/
theorem firstAvailMatch_head (c : Char) (f : List Char) (ts : List (List Char))
    (time : Option Time) (hc : lcC c ≠ 'f') :
    firstAvailMatch ((c :: f) :: ts) time = .ok none := by
  unfold firstAvailMatch
  split
  next r dir revMost heq =>
    split
    next f2 middles heq2 =>
      rw [if_neg]
      intro hcond
      have h0 := congrArg List.reverse heq
      rw [List.reverse_reverse] at h0
      have h1 : (r :: dir :: revMost).reverse = f2 :: (middles ++ [dir, r]) := by
        rw [show (r :: dir :: revMost).reverse = revMost.reverse ++ [dir, r] from by simp, heq2]
        simp
      rw [h1] at h0
      injection h0 with hhead htail
      have hlc : lc f2 = ("first").data := hcond.1
      rw [← hhead] at hlc
      simp only [lc, List.map_cons] at hlc
      have : lcC c = 'f' := by
        have h2 := congrArg List.head? hlc
        simp at h2
        exact h2
      exact hc this
    next => rfl
  next => rfl

/-! ## C7: a signed integer never matches the delta grammar -/

/-- C7: for a delta-shaped expression whose integer token carries a minus
sign, the delta grammar's digits-only integer token does not match, no
other grammar matches either, and parsing fails with the engine's
invalid-smart-date error rather than producing a negative delta. -/
theorem c7_signed_delta_parse_error (ds r : String)
    (hds : ds.data ≠ []) (hdsd : ∀ c ∈ ds.data, c.isDigit = true)
    (hrne : r.data ≠ []) (hrw : ∀ c ∈ r.data, isWordDot c = true) :
    parseNode (.str ("-" ++ ds ++ " days after " ++ r))
      = .error (.validationError (invalidSmartDateMsg ("-" ++ ds ++ " days after " ++ r))) := by
  have hdata : ("-" ++ ds ++ " days after " ++ r).data
      = ('-' :: ds.data) ++ ' ' :: (('d' :: 'a' :: 'y' :: 's' :: []) ++ ' '
          :: (('a' :: 'f' :: 't' :: 'e' :: 'r' :: []) ++ ' ' :: r.data)) := by
    have h0 : ("-" ++ ds ++ " days after " ++ r).data
        = ['-'] ++ ds.data ++ (" days after ").data ++ r.data := rfl
    rw [h0]
    simp
  have hpart : ∀ c ∈ ("-" ++ ds ++ " days after " ++ r).data,
      c = '-' ∨ c ∈ ds.data ∨ c ∈ (" days after ").data ∨ c ∈ r.data := by
    intro c hc
    have h0 : ("-" ++ ds ++ " days after " ++ r).data
        = ['-'] ++ ds.data ++ (" days after ").data ++ r.data := rfl
    rw [h0] at hc
    simp only [List.mem_append, List.mem_singleton] at hc
    tauto
  have hlit_colon : ∀ x ∈ (" days after ").data, x ≠ ':' := by decide
  have hnc : ∀ c ∈ ("-" ++ ds ++ " days after " ++ r).data, c ≠ ':' := by
    intro c hc
    rcases hpart c hc with h | h | h | h
    · subst h; decide
    · exact isDigit_ne_colon (hdsd c h)
    · exact hlit_colon c h
    · exact isWordDot_ne_colon (hrw c h)
  have hnsp1 : ∀ c ∈ ('-' :: ds.data), c ≠ ' ' := by
    intro c hc
    rcases List.mem_cons.mp hc with h | h
    · subst h; decide
    · exact isDigit_ne_space (hdsd c h)
  have hnspr : ∀ c ∈ r.data, c ≠ ' ' := fun c hc => isWordDot_ne_space (hrw c hc)
  have hstrip := stripTime_of_no_colon _ hnc
  have htokens : splitOnSpace (("-" ++ ds ++ " days after " ++ r).data)
      = [('-' :: ds.data), ('d' :: 'a' :: 'y' :: 's' :: []),
          ('a' :: 'f' :: 't' :: 'e' :: 'r' :: []), r.data] := by
    rw [hdata, splitOnSpace_append _ _ hnsp1,
      splitOnSpace_append _ _ (by decide), splitOnSpace_append _ _ (by decide),
      splitOnSpace_no_space _ hnspr]
  have hspmem : ' ' ∈ ("-" ++ ds ++ " days after " ++ r).data := by
    rw [hdata]
    simp
  have hdirect : directParse (("-" ++ ds ++ " days after " ++ r).data) = .ok none := by
    unfold directParse
    rw [hstrip]
    simp only [Bind.bind, Except.bind]
    rw [if_neg]
    intro hcond
    have hall := hcond.2
    rw [List.all_eq_true] at hall
    have := hall ' ' hspmem
    exact absurd this (by decide)
  have hdelta : deltaParse (("-" ++ ds ++ " days after " ++ r).data) = .ok none := by
    unfold deltaParse
    rw [hstrip]
    simp only [Bind.bind, Except.bind]
    rw [htokens]
    have hcondfalse : ('-' :: ds.data).all Char.isDigit = false := by
      simp
    simp [hcondfalse]
  have hfirst : firstAvailableParse (("-" ++ ds ++ " days after " ++ r).data) = .ok none := by
    unfold firstAvailableParse
    rw [hstrip]
    simp only [Bind.bind, Except.bind]
    have h0 : ("-" ++ ds ++ " days after " ++ r).data
        = '-' :: (ds.data ++ (" days after ").data ++ r.data) := by
      rw [hdata]
      simp
    rw [h0]
    rw [show replaceComma ('-' :: (ds.data ++ (" days after ").data ++ r.data))
        = '-' :: replaceComma (ds.data ++ (" days after ").data ++ r.data) from rfl]
    rw [show replaceOr ('-' :: replaceComma (ds.data ++ (" days after ").data ++ r.data))
        = '-' :: replaceOr (replaceComma (ds.data ++ (" days after ").data ++ r.data)) from rfl]
    cases hZ : splitOnSpace (replaceOr (replaceComma (ds.data ++ (" days after ").data ++ r.data))) with
    | nil => exact absurd hZ (splitOnSpace_ne_nil _)
    | cons t ts =>
      have hsp : splitOnSpace ('-' :: replaceOr (replaceComma (ds.data ++ (" days after ").data ++ r.data)))
          = ('-' :: t) :: ts := by
        show (match splitOnSpace (replaceOr (replaceComma (ds.data ++ (" days after ").data ++ r.data))) with
          | [] => [[]]
          | t :: ts => if '-' = ' ' then [] :: t :: ts else ('-' :: t) :: ts) = ('-' :: t) :: ts
        rw [hZ]
        simp
      rw [hsp]
      exact firstAvailMatch_head '-' t ts none (by decide)
  have hweek : dayOfGivenWeekParse (("-" ++ ds ++ " days after " ++ r).data) = .ok none := by
    unfold dayOfGivenWeekParse
    have hlcdata : lc (("-" ++ ds ++ " days after " ++ r).data)
        = ('-' :: lc ds.data) ++ ' ' :: (('d' :: 'a' :: 'y' :: 's' :: []) ++ ' '
            :: (('a' :: 'f' :: 't' :: 'e' :: 'r' :: []) ++ ' ' :: lc r.data)) := by
      rw [hdata]
      simp only [lc, List.map_append, List.map_cons, List.map_nil]
      simp only [show lcC '-' = '-' from rfl, show lcC ' ' = ' ' from rfl,
        show lcC 'd' = 'd' from rfl, show lcC 'a' = 'a' from rfl,
        show lcC 'y' = 'y' from rfl, show lcC 's' = 's' from rfl,
        show lcC 'f' = 'f' from rfl, show lcC 't' = 't' from rfl,
        show lcC 'e' = 'e' from rfl, show lcC 'r' = 'r' from rfl]
    rw [hlcdata]
    have hds_colon : ∀ c ∈ lc ds.data, c ≠ ':' := by
      intro c hc
      have hc2 : c ∈ List.map lcC ds.data := hc
      obtain ⟨x, hx, rfl⟩ := List.mem_map.mp hc2
      exact lcC_ne_colon (isDigit_ne_colon (hdsd x hx))
    have hr_colon : ∀ c ∈ lc r.data, c ≠ ':' := by
      intro c hc
      have hc2 : c ∈ List.map lcC r.data := hc
      obtain ⟨x, hx, rfl⟩ := List.mem_map.mp hc2
      exact lcC_ne_colon (isWordDot_ne_colon (hrw x hx))
    have hnc2 : ∀ c ∈ ('-' :: lc ds.data) ++ ' ' :: (('d' :: 'a' :: 'y' :: 's' :: []) ++ ' '
        :: (('a' :: 'f' :: 't' :: 'e' :: 'r' :: []) ++ ' ' :: lc r.data)), c ≠ ':' := by
      intro c hc
      rw [List.mem_append] at hc
      rcases hc with hc | hc
      · rcases List.mem_cons.mp hc with h | h
        · subst h; decide
        · exact hds_colon c h
      · rcases List.mem_cons.mp hc with h | h
        · subst h; decide
        · rw [List.mem_append] at h
          rcases h with h | h
          · exact (show ∀ x ∈ ('d' :: 'a' :: 'y' :: 's' :: []), x ≠ ':' from by decide) c h
          · rcases List.mem_cons.mp h with h2 | h2
            · subst h2; decide
            · rw [List.mem_append] at h2
              rcases h2 with h3 | h3
              · exact (show ∀ x ∈ ('a' :: 'f' :: 't' :: 'e' :: 'r' :: []), x ≠ ':' from by decide) c h3
              · rcases List.mem_cons.mp h3 with h4 | h4
                · subst h4; decide
                · exact hr_colon c h4
    have hstrip2 := stripTime_of_no_colon _ hnc2
    rw [hstrip2]
    simp only [Bind.bind, Except.bind]
    have hnsp2 : ∀ c ∈ ('-' :: lc ds.data), c ≠ ' ' := by
      intro c hc
      rcases List.mem_cons.mp hc with h | h
      · subst h; decide
      · simp only [lc, List.mem_map] at h
        obtain ⟨x, hx, rfl⟩ := h
        exact lcC_ne_space (isDigit_ne_space (hdsd x hx))
    have hnspr2 : ∀ c ∈ lc r.data, c ≠ ' ' := by
      intro c hc
      simp only [lc, List.mem_map] at hc
      obtain ⟨x, hx, rfl⟩ := hc
      exact lcC_ne_space (isWordDot_ne_space (hrw x hx))
    rw [splitOnSpace_append _ _ hnsp2, splitOnSpace_append _ _ (by decide),
      splitOnSpace_append _ _ (by decide), splitOnSpace_no_space _ hnspr2]
    have hne : ¬((('d' :: 'a' :: 'y' :: 's' :: []) : List Char) = ('o' :: 'f' :: [])) := by
      decide
    simp [hne]
  simp only [parseNode, hdirect, hdelta, hfirst, hweek]

/-- Witness for C7 at the spec's own example, "-1 days after due". -/
theorem c7_signed_delta_parse_error_witness :
    parseNode (.str ("-" ++ "1" ++ " days after " ++ "due"))
      = .error (.validationError (invalidSmartDateMsg ("-" ++ "1" ++ " days after " ++ "due"))) :=
  c7_signed_delta_parse_error ("1") ("due") (by decide) (by decide) (by decide) (by decide)

/-! ## C8: purity of the resolution facade -/

/-- The object-threading variant agrees with the plain one and hands the
caller's objects back untouched. -/
theorem resolveSmartDatesMut_eq (fuel : Nat) (sd : List (String × RawValue))
    (dc : Option DateContext) :
    resolveSmartDatesMut fuel sd dc
      = (resolveSmartDatesF fuel sd dc).map (fun out => (out, sd, dc)) := by
  cases h1 : parseAll sd with
  | error e => simp [resolveSmartDatesMut, resolveSmartDatesF, h1]
  | ok nodes =>
            cases h2 : topologicalSort nodes with
            | error e => simp [resolveSmartDatesMut, resolveSmartDatesF, h1, h2]
            | ok order =>
              cases h3 : resolveList fuel nodes (dc.getD ⟨none, none⟩) order
                  ((dc.getD ⟨none, none⟩).known.getD []) with
              | none => simp [resolveSmartDatesMut, resolveSmartDatesF, h1, h2, h3]
              | some res =>
                cases res with
                | error e => simp [resolveSmartDatesMut, resolveSmartDatesF, h1, h2, h3]
                | ok univ =>
                  cases h4 : lookupAllKeys sd univ with
                  | error e =>
                    simp [resolveSmartDatesMut, resolveSmartDatesF, h1, h2, h3, h4]
                  | ok result =>
                    simp [resolveSmartDatesMut, resolveSmartDatesF, h1, h2, h3, h4]

/-- C8: the facade is pure — calling it twice on identical inputs gives
identical outputs, and a call leaves the passed-in batch and context
exactly as they were (its only effect is the returned mapping). -/
theorem c8_resolve_pure :
    (∀ (fuel : Nat) (sd : List (String × RawValue)) (dc : Option DateContext),
      resolveSmartDatesF fuel sd dc = resolveSmartDatesF fuel sd dc) ∧
    (∀ (fuel : Nat) (sd : List (String × RawValue)) (dc : Option DateContext)
        (out : Except PubError (List (String × DateValue)))
        (sd2 : List (String × RawValue)) (dc2 : Option DateContext),
      resolveSmartDatesMut fuel sd dc = some (out, sd2, dc2) →
      sd2 = sd ∧ dc2 = dc ∧ resolveSmartDatesMut fuel sd2 dc2 = some (out, sd2, dc2)) := by
  constructor
  · intro fuel sd dc
    rfl
  · intro fuel sd dc out sd2 dc2 h
    rw [resolveSmartDatesMut_eq] at h
    cases hF : resolveSmartDatesF fuel sd dc with
    | none => rw [hF] at h; exact absurd h (by simp)
    | some out0 =>
      rw [hF] at h
      rw [show (some out0).map (fun out => (out, sd, dc)) = some (out0, sd, dc) from rfl] at h
      injection h with h1
      injection h1 with hout h2
      injection h2 with hsd hdc
      subst hout
      subst hsd
      subst hdc
      refine ⟨rfl, rfl, ?_⟩
      rw [resolveSmartDatesMut_eq, hF]
      rfl

/-- Witness for C8 at a concrete batch and context. -/
theorem c8_resolve_pure_witness :
    [(("released"), RawValue.str ("due"))]
      = [(("released"), RawValue.str ("due"))] ∧
    (some (⟨some [(("due"), DateValue.date (mkDate 2020 12 15))], none⟩ : DateContext))
      = some (⟨some [(("due"), DateValue.date (mkDate 2020 12 15))], none⟩ : DateContext) ∧
    resolveSmartDatesMut 9 [(("released"), RawValue.str ("due"))]
        (some ⟨some [(("due"), DateValue.date (mkDate 2020 12 15))], none⟩)
      = some (.ok [(("released"), DateValue.date (mkDate 2020 12 15))],
          [(("released"), RawValue.str ("due"))],
          some ⟨some [(("due"), DateValue.date (mkDate 2020 12 15))], none⟩) :=
  c8_resolve_pure.2 9 [(("released"), RawValue.str ("due"))]
    (some ⟨some [(("due"), DateValue.date (mkDate 2020 12 15))], none⟩)
    (.ok [(("released"), DateValue.date (mkDate 2020 12 15))])
    [(("released"), RawValue.str ("due"))]
    (some ⟨some [(("due"), DateValue.date (mkDate 2020 12 15))], none⟩)
    (by decide)

/-! ## C1: where `previous.metadata.*` really comes from -/

theorem addPreviousKeys_known (ctx : DateContext) (coll : Collection)
    (pk : String) (pub : Publication)
    (hord : coll.schema.isOrdered = true)
    (hlast : coll.publications.getLast? = some (pk, pub)) :
    addPreviousKeys ctx coll
      = ⟨some (prevFold (ctx.known.getD []) pub.metadata), ctx.startOfWeekOne⟩ := by
  unfold addPreviousKeys
  rw [hord, hlast]
  rfl

theorem string_prefix_cancel (a b c : String) (h : a ++ b = a ++ c) : b = c := by
  have hd : (a ++ b).data = (a ++ c).data := by rw [h]
  have hd2 : a.data ++ b.data = a.data ++ c.data := hd
  have h3 := List.append_cancel_left hd2
  cases b
  cases c
  exact congrArg String.mk h3

/-- Pushed-in entries with other names do not affect a lookup. -/
theorem lookup_prevFold_of_not_mem (meta : List (String × MetaValue))
    (known0 : List (String × DateValue)) (m : String)
    (h : ∀ p ∈ meta, p.1 ≠ m) :
    (prevFold known0 meta).lookup ("previous.metadata." ++ m) = known0.lookup ("previous.metadata." ++ m) := by
  induction meta generalizing known0 with
  | nil => rfl
  | cons kv rest ih =>
    have hkv : kv.1 ≠ m := h kv (by simp)
    have hrest : ∀ p ∈ rest, p.1 ≠ m := fun p hp => h p (by simp [hp])
    cases kv with
    | mk k mv =>
      cases mv with
      | dateVal v =>
        rw [show prevFold known0 ((k, MetaValue.dateVal v) :: rest)
            = prevFold (("previous.metadata." ++ k, v) :: known0) rest from rfl]
        rw [ih _ hrest]
        have hne : (("previous.metadata." ++ m) == ("previous.metadata." ++ k)) = false := by
          rw [beq_eq_false_iff_ne]
          intro hc
          exact hkv (string_prefix_cancel _ _ _ hc.symm)
        simp [List.lookup, hne]
      | other =>
        rw [show prevFold known0 ((k, MetaValue.other) :: rest) = prevFold known0 rest from rfl]
        exact ih _ hrest

/-- The injected key `previous.metadata.<m>` looks up to the metadata
value of `m` in the previous publication. -/
theorem lookup_prevFold (meta : List (String × MetaValue))
    (known0 : List (String × DateValue)) (m : String) (v : DateValue)
    (hnodup : (meta.map Prod.fst).Nodup) (hmem : (m, MetaValue.dateVal v) ∈ meta) :
    (prevFold known0 meta).lookup ("previous.metadata." ++ m) = some v := by
  induction meta generalizing known0 with
  | nil => exact absurd hmem (by simp)
  | cons kv rest ih =>
    rcases List.mem_cons.mp hmem with hhead | htail
    · subst hhead
      rw [show prevFold known0 ((m, MetaValue.dateVal v) :: rest)
          = prevFold (("previous.metadata." ++ m, v) :: known0) rest from rfl]
      have h0 : (m ∉ rest.map Prod.fst) ∧ (rest.map Prod.fst).Nodup := by
        rw [List.map_cons] at hnodup
        exact List.nodup_cons.mp hnodup
      have hnm : ∀ p ∈ rest, p.1 ≠ m := by
        intro p hp hc
        exact h0.1 (by rw [← hc]; exact List.mem_map_of_mem Prod.fst hp)
      rw [lookup_prevFold_of_not_mem rest _ m hnm]
      simp [List.lookup]
    · have h0 : (kv.1 ∉ rest.map Prod.fst) ∧ (rest.map Prod.fst).Nodup := by
        rw [List.map_cons] at hnodup
        exact List.nodup_cons.mp hnodup
      cases kv with
      | mk k mv =>
        cases mv with
        | dateVal w =>
          rw [show prevFold known0 ((k, MetaValue.dateVal w) :: rest)
              = prevFold (("previous.metadata." ++ k, w) :: known0) rest from rfl]
          exact ih _ h0.2 htail
        | other =>
          rw [show prevFold known0 ((k, MetaValue.other) :: rest) = prevFold known0 rest from rfl]
          exact ih _ h0.2 htail

/-- A nonempty all-word-or-dot string parses as a plain direct
reference. -/
theorem directParse_direct (s : String) (hne : s.data ≠ [])
    (hwd : ∀ c ∈ s.data, isWordDot c = true) :
    directParse s.data = .ok (some (.direct s none)) := by
  have hnc : ∀ c ∈ s.data, c ≠ ':' := fun c hc => isWordDot_ne_colon (hwd c hc)
  have hstrip := stripTime_of_no_colon s.data hnc
  unfold directParse
  rw [hstrip]
  simp only [Bind.bind, Except.bind]
  rw [if_pos ⟨hne, List.all_eq_true.mpr hwd⟩]
  have ha : s.data.asString = s := by
    cases s
    rfl
  rw [ha]

theorem parseNode_direct (s : String) (hne : s.data ≠ [])
    (hwd : ∀ c ∈ s.data, isWordDot c = true) :
    parseNode (.str s) = .ok (.direct s none) := by
  simp only [parseNode, directParse_direct s hne hwd]

/-- A one-node batch whose node refers outside the batch sorts to the
single key. -/
theorem topologicalSort_single (k : String) (n : Node)
    (h : ∀ r, n.relativeTo? = some r → r ≠ k) :
    topologicalSort [(k, n)] = .ok [k] := by
  have hch : childrenOf [(k, n)] k = [] := by
    unfold childrenOf
    cases hr : n.relativeTo? with
    | none => simp [hr]
    | some r => simp [hr, h r hr]
  unfold topologicalSort
  rw [show ([(k, n)].map Prod.fst) = [k] from rfl,
    show [(k, n)].length + 1 = 2 from rfl]
  unfold visitAll
  rw [if_neg (show ¬ k ∈ ([] : List String) from by simp)]
  unfold visitFuel
  rw [hch]
  rw [show childFold (fun c bl => visitFuel [(k, n)] 1 c (k :: []) bl) (k :: []) [] []
      = Except.ok [] from rfl]
  simp [visitAll, List.lookup]

/-- C1 counterexample: `resolve` does not inject any
`previous.metadata.<name>` key.  A batch referencing
`previous.metadata.due` against a context whose `known` lacks that key
fails with an unknown-field error even though `due` itself is known — so
batch expressions cannot reference `previous.metadata.<name>` unless the
caller pre-populated the key. -/
theorem c1_counterexample :
    resolveSmartDatesF 9 [(("released"), .str ("previous.metadata.due"))]
        (some ⟨some [(("due"), .date (mkDate 2020 12 15))], none⟩)
      = some (.error (.validationError (unknownFieldMsg ("previous.metadata.due")))) := by
  decide

/-- C1 as amended: `resolve` seeds its environment solely from
`context.known`; `DateContext` has no previous-publication field.  It is
the discovery caller (`_add_previous_keys`) that, for an ordered
collection with at least one publication, injects every date-valued
metadata field of the latest publication into `known` under
`previous.metadata.<name>` before calling `resolve`; with such a
pre-populated context a batch expression may reference
`previous.metadata.<name>`. -/
theorem c1_previous_keys_amended (fuel : Nat) (ctx : DateContext) (coll : Collection)
    (pk : String) (pub : Publication) (m : String) (v : DateValue) (key : String)
    (hord : coll.schema.isOrdered = true)
    (hlast : coll.publications.getLast? = some (pk, pub))
    (hnodup : (pub.metadata.map Prod.fst).Nodup)
    (hmem : (m, MetaValue.dateVal v) ∈ pub.metadata)
    (hmwd : ∀ c ∈ m.data, isWordDot c = true)
    (hkey : key ≠ "previous.metadata." ++ m) :
    ((addPreviousKeys ctx coll).known.getD []).lookup ("previous.metadata." ++ m) = some v ∧
    resolveSmartDatesF fuel [(key, .str ("previous.metadata." ++ m))]
        (some (addPreviousKeys ctx coll))
      = some (.ok [(key, v)]) := by
  have hkn := addPreviousKeys_known ctx coll pk pub hord hlast
  have hlook : (prevFold (ctx.known.getD []) pub.metadata).lookup ("previous.metadata." ++ m)
      = some v := lookup_prevFold pub.metadata _ m v hnodup hmem
  constructor
  · rw [hkn]
    exact hlook
  · have hsne : ("previous.metadata." ++ m).data ≠ [] := by
      have : ("previous.metadata." ++ m).data = ("previous.metadata.").data ++ m.data := rfl
      rw [this]
      simp
    have hswd : ∀ c ∈ ("previous.metadata." ++ m).data, isWordDot c = true := by
      intro c hc
      have h0 : ("previous.metadata." ++ m).data = ("previous.metadata.").data ++ m.data := rfl
      rw [h0, List.mem_append] at hc
      rcases hc with hc | hc
      · exact (show ∀ x ∈ ("previous.metadata.").data, isWordDot x = true from by decide) c hc
      · exact hmwd c hc
    have hparse := parseNode_direct ("previous.metadata." ++ m) hsne hswd
    have hparseAll : parseAll [(key, RawValue.str ("previous.metadata." ++ m))]
        = .ok [(key, Node.direct ("previous.metadata." ++ m) none)] := by
      unfold parseAll
      rw [hparse]
      rfl
    have htopo := topologicalSort_single key (Node.direct ("previous.metadata." ++ m) none)
      (by
        intro r hr
        simp only [Node.relativeTo?] at hr
        injection hr with hr2
        rw [← hr2]
        exact fun hc => hkey hc.symm)
    rw [hkn]
    simp only [resolveSmartDatesF, hparseAll, htopo, resolveList, Node.resolve]
    rw [show List.lookup key [(key, Node.direct ("previous.metadata." ++ m) none)]
        = some (Node.direct ("previous.metadata." ++ m) none) from by simp [List.lookup]]
    simp only [Option.getD_some]
    rw [hlook]
    simp only [combineDateAndTime, lookupAllKeys]
    rw [show List.lookup key ((key, v) :: prevFold (ctx.known.getD []) pub.metadata)
        = some v from by simp [List.lookup]]
    rfl

/-- Witness for C1's amended statement at a concrete ordered collection
with one already-resolved publication. -/
theorem c1_previous_keys_amended_witness :
    (((addPreviousKeys ⟨none, none⟩
        ⟨⟨true⟩, [(("pub01"), ⟨[(("due"), MetaValue.dateVal (.date (mkDate 2020 12 15)))]⟩)]⟩).known.getD
          []).lookup ("previous.metadata." ++ "due") = some (.date (mkDate 2020 12 15))) ∧
    resolveSmartDatesF 9 [(("released"), .str ("previous.metadata." ++ "due"))]
        (some (addPreviousKeys ⟨none, none⟩
          ⟨⟨true⟩, [(("pub01"), ⟨[(("due"), MetaValue.dateVal (.date (mkDate 2020 12 15)))]⟩)]⟩))
      = some (.ok [(("released"), DateValue.date (mkDate 2020 12 15))]) :=
  c1_previous_keys_amended 9 ⟨none, none⟩
    ⟨⟨true⟩, [(("pub01"), ⟨[(("due"), MetaValue.dateVal (.date (mkDate 2020 12 15)))]⟩)]⟩
    ("pub01") ⟨[(("due"), MetaValue.dateVal (.date (mkDate 2020 12 15)))]⟩
    ("due") (.date (mkDate 2020 12 15)) ("released")
    rfl rfl (by decide) (by decide) (by decide) (by decide)

/-! ## C4: first-available scan semantics -/

/-- C4: a first-available rule starts its scan one day from the referent
in the direction's sign, stops at the first date whose weekday is in the
set (within seven days), and never returns the referent's own day: in
particular, "first tuesday after r" with r itself a Tuesday yields the
Tuesday one full week later (`r + 7` days). -/
theorem c4_first_available_scan :
    (∀ (fuel : Nat) (univ : List (String × DateValue)) (ctx : DateContext)
        (days : List Nat) (boa r : String) (t : Option Time) (v : DateValue) (w : Nat),
      7 ≤ fuel → univ.lookup r = some v → w ∈ days → (∀ d ∈ days, d ≤ 6) →
      ∃ k : Nat, 1 ≤ k ∧ k ≤ 7 ∧
        Node.resolve (.firstAvailable days boa r t) fuel univ ctx
          = some (.ok (combineDateAndTime (v.addDays (afterSign boa * (k : Int))) t)) ∧
        (v.addDays (afterSign boa * (k : Int))).weekday ∈ days ∧
        ∀ j : Nat, 1 ≤ j → j < k →
          (v.addDays (afterSign boa * (j : Int))).weekday ∉ days) ∧
    (∀ (fuel : Nat) (univ : List (String × DateValue)) (ctx : DateContext)
        (boa r : String) (t : Option Time) (v : DateValue),
      7 ≤ fuel → univ.lookup r = some v → lc (boa.data) = ("after").data →
      Node.resolve (.firstAvailable [v.weekday] boa r t) fuel univ ctx
        = some (.ok (combineDateAndTime (v.addDays 7) t))) := by
  constructor
  · intro fuel univ ctx days boa r t v w hf hv hw hwall
    exact firstAvailable_eval fuel univ ctx days boa r t v w (afterSign boa) hf hv hw hwall rfl
  · intro fuel univ ctx boa r t v hf hv hafter
    have hsign : afterSign boa = 1 := by rw [afterSign, if_pos hafter]
    obtain ⟨k, hk1, hk7, hres, hmem, hmin⟩ :=
      firstAvailable_eval fuel univ ctx [v.weekday] boa r t v v.weekday (afterSign boa)
        hf hv (by simp)
        (by
          intro d hd
          simp only [List.mem_singleton] at hd
          subst hd
          exact DateValue.weekday_at_most_six v)
        rfl
    have hmemv : (v.addDays (afterSign boa * (k : Int))).weekday = v.weekday := by
      simpa using hmem
    have hk : k = 7 := by
      rw [hsign, one_mul, DateValue.weekday_addDays] at hmemv
      have h1 : ((v.dateOf.ord + 6) % 7).toNat = v.weekday := rfl
      omega
    subst hk
    rw [hsign, one_mul] at hres
    have h7 : (((7 : Nat) : Int)) = (7 : Int) := by norm_num
    rw [h7] at hres
    exact hres

/-- Witness for C4 with r = 2020-12-22, a Tuesday: the result is the next
Tuesday, seven days later. -/
theorem c4_first_available_scan_witness :
    Node.resolve
        (.firstAvailable [(DateValue.date (mkDate 2020 12 22)).weekday]
          ("after") ("due") none)
        9 [(("due"), .date (mkDate 2020 12 22))] ⟨none, none⟩
      = some (.ok (combineDateAndTime ((DateValue.date (mkDate 2020 12 22)).addDays 7) none)) :=
  c4_first_available_scan.2 9 [(("due"), .date (mkDate 2020 12 22))] ⟨none, none⟩
    ("after") ("due") none (.date (mkDate 2020 12 22)) (by omega) rfl (by decide)

/-! ## C5: week references -/

/-- C5: with a week-one anchor set, a week rule with week number n and
weekday w resolves by scanning forward day-by-day from
`anchor + (n - 1) weeks` for the first date of weekday w (at most six
steps), combined with the optional time; concretely, with anchor
2020-12-10 (a Thursday), "tuesday of week 2" resolves to 2020-12-22. -/
theorem c5_week_reference :
    (∀ (fuel : Nat) (univ : List (String × DateValue)) (ctx : DateContext)
        (day wk : Nat) (t : Option Time) (anchor : Date),
      7 ≤ fuel → ctx.startOfWeekOne = some anchor → day ≤ 6 →
      ∃ k : Nat, k ≤ 6 ∧
        Node.resolve (.dayOfGivenWeek day wk t) fuel univ ctx
          = some (.ok (combineDateAndTime
              (.date ⟨anchor.ord + 7 * ((wk : Int) - 1) + (k : Int)⟩) t)) ∧
        (⟨anchor.ord + 7 * ((wk : Int) - 1) + (k : Int)⟩ : Date).weekday = day ∧
        ∀ j : Nat, j < k →
          (⟨anchor.ord + 7 * ((wk : Int) - 1) + (j : Int)⟩ : Date).weekday ≠ day) ∧
    resolveSmartDatesF 9 [(("release"), .str ("tuesday of week 2"))]
        (some ⟨none, some (mkDate 2020 12 10)⟩)
      = some (.ok [(("release"), .date (mkDate 2020 12 22))]) := by
  constructor
  · intro fuel univ ctx day wk t anchor hf ha hd
    exact dayOfGivenWeek_eval fuel univ ctx day wk t anchor hf ha hd
  · decide

/-- Witness for C5 with anchor 2020-12-10 (a Thursday) and rule
"tuesday of week 2" (day 1, week 2). -/
theorem c5_week_reference_witness :
    ∃ k : Nat, k ≤ 6 ∧
      Node.resolve (.dayOfGivenWeek 1 2 none) 9 [] ⟨none, some (mkDate 2020 12 10)⟩
        = some (.ok (combineDateAndTime
            (.date ⟨(mkDate 2020 12 10).ord + 7 * ((2 : Int) - 1) + (k : Int)⟩) none)) ∧
      (⟨(mkDate 2020 12 10).ord + 7 * ((2 : Int) - 1) + (k : Int)⟩ : Date).weekday = 1 ∧
      ∀ j : Nat, j < k →
        (⟨(mkDate 2020 12 10).ord + 7 * ((2 : Int) - 1) + (j : Int)⟩ : Date).weekday ≠ 1 :=
  c5_week_reference.1 9 [] ⟨none, some (mkDate 2020 12 10)⟩ 1 2 none (mkDate 2020 12 10)
    (by omega) rfl (by omega)

/-! ## C10: week number zero is accepted -/

/-- C10: the week grammar accepts the unsigned integer 0: "monday of
week 0" parses, and evaluates against a week start one week before
the anchor (`anchor + 7 * (0 - 1) = anchor - 7`); concretely, with anchor
2020-12-10, it resolves to Monday 2020-12-07. -/
theorem c10_week_zero :
    parseNode (.str ("monday of week 0")) = .ok (.dayOfGivenWeek 0 0 none) ∧
    (∀ (fuel : Nat) (univ : List (String × DateValue)) (ctx : DateContext)
        (day : Nat) (t : Option Time) (anchor : Date),
      7 ≤ fuel → ctx.startOfWeekOne = some anchor → day ≤ 6 →
      ∃ k : Nat, k ≤ 6 ∧
        Node.resolve (.dayOfGivenWeek day 0 t) fuel univ ctx
          = some (.ok (combineDateAndTime (.date ⟨anchor.ord - 7 + (k : Int)⟩) t)) ∧
        (⟨anchor.ord - 7 + (k : Int)⟩ : Date).weekday = day ∧
        ∀ j : Nat, j < k → (⟨anchor.ord - 7 + (j : Int)⟩ : Date).weekday ≠ day) ∧
    resolveSmartDatesF 9 [(("x"), .str ("monday of week 0"))]
        (some ⟨none, some (mkDate 2020 12 10)⟩)
      = some (.ok [(("x"), .date (mkDate 2020 12 7))]) := by
  refine ⟨by decide, ?_, by decide⟩
  intro fuel univ ctx day t anchor hf ha hd
  have h := dayOfGivenWeek_eval fuel univ ctx day 0 t anchor hf ha hd
  have he : anchor.ord + 7 * (((0 : Nat) : Int) - 1) = anchor.ord - 7 := by
    push_cast
    ring
  rw [he] at h
  exact h

/-- Witness for C10's quantified part at anchor 2020-12-10 and weekday
Monday. -/
theorem c10_week_zero_witness :
    ∃ k : Nat, k ≤ 6 ∧
      Node.resolve (.dayOfGivenWeek 0 0 none) 9 [] ⟨none, some (mkDate 2020 12 10)⟩
        = some (.ok (combineDateAndTime
            (.date ⟨(mkDate 2020 12 10).ord - 7 + (k : Int)⟩) none)) ∧
      (⟨(mkDate 2020 12 10).ord - 7 + (k : Int)⟩ : Date).weekday = 0 ∧
      ∀ j : Nat, j < k →
        (⟨(mkDate 2020 12 10).ord - 7 + (j : Int)⟩ : Date).weekday ≠ 0 :=
  c10_week_zero.2.1 9 [] ⟨none, some (mkDate 2020 12 10)⟩ 0 none (mkDate 2020 12 10)
    (by omega) rfl (by omega)

/-! ## C6: a parseable rule whose evaluation never terminates -/

/-- C6 (refuting the bounded-scan claim): the string "first , after due"
parses — the comma becomes a space, the regex's weekday-list group matches
a lone space, and `" ".split()` yields no weekday at all — and the
resulting rule's evaluation loop scans for a weekday in the empty set, so
it never exits: the model returns `none` (still looping) for every
iteration budget. -/
theorem c6_first_available_nontermination :
    parseNode (.str ("first , after due")) = .ok (.firstAvailable [] ("after") ("due") none) ∧
    ∀ fuel : Nat,
      resolveSmartDatesF fuel [(("x"), .str ("first , after due"))]
        (some ⟨some [(("due"), .date (mkDate 2020 12 15))], none⟩) = none := by
  constructor
  · decide
  · intro fuel
    have hp : parseAll [(("x"), RawValue.str ("first , after due"))]
        = .ok [(("x"), Node.firstAvailable [] ("after") ("due") none)] := by decide
    have ht : topologicalSort [(("x"), Node.firstAvailable [] ("after") ("due") none)]
        = .ok [("x")] := by decide
    have hscan : ∀ x : DateValue,
        scanWhile fuel (fun w => ([] : List Nat).contains w.weekday)
          (fun w => w.addDays (afterSign ("after"))) x = none :=
      scanWhile_none _ _ (fun y => rfl) fuel
    simp only [resolveSmartDatesF, hp, ht]
    simp only [resolveList, Node.resolve]
    rw [show List.lookup ("x") [(("x"), Node.firstAvailable [] ("after") ("due") none)]
        = some (Node.firstAvailable [] ("after") ("due") none) from rfl]
    simp only [Option.getD]
    rw [show List.lookup ("due")
          [(("due"), DateValue.date (mkDate 2020 12 15))]
        = some (DateValue.date (mkDate 2020 12 15)) from rfl]
    simp only [hscan]

/-! ## C3: evaluation failure modes -/

/-- C3: `evaluate` fails (with the engine's error) on each of: a missing
referent field (for each of the three referencing rule forms), a
week-reference without a week-one anchor, an hour-unit delta whose
referent value is a plain date, and an hour-unit delta that also carries
an explicit time-of-day. -/
theorem c3_evaluate_failures :
    (∀ (fuel : Nat) (univ : List (String × DateValue)) (ctx : DateContext)
        (r : String) (t : Option Time), univ.lookup r = none →
      Node.resolve (.direct r t) fuel univ ctx
        = some (.error (.validationError (unknownFieldMsg r)))) ∧
    (∀ (fuel : Nat) (univ : List (String × DateValue)) (ctx : DateContext)
        (isHours : Bool) (amount : Int) (r : String) (t : Option Time),
        univ.lookup r = none →
      Node.resolve (.delta isHours amount r t) fuel univ ctx
        = some (.error (.validationError (unknownFieldMsg r)))) ∧
    (∀ (fuel : Nat) (univ : List (String × DateValue)) (ctx : DateContext)
        (days : List Nat) (boa r : String) (t : Option Time), univ.lookup r = none →
      Node.resolve (.firstAvailable days boa r t) fuel univ ctx
        = some (.error (.validationError (unknownFieldMsg r)))) ∧
    (∀ (fuel : Nat) (univ : List (String × DateValue)) (ctx : DateContext)
        (day wk : Nat) (t : Option Time), ctx.startOfWeekOne = none →
      Node.resolve (.dayOfGivenWeek day wk t) fuel univ ctx
        = some (.error (.validationError weekOneMsg))) ∧
    (∀ (fuel : Nat) (univ : List (String × DateValue)) (ctx : DateContext)
        (amount : Int) (r : String) (t : Option Time) (d : Date),
        univ.lookup r = some (.date d) →
      Node.resolve (.delta true amount r t) fuel univ ctx
        = some (.error (.validationError hoursDateMsg))) ∧
    (∀ (fuel : Nat) (univ : List (String × DateValue)) (ctx : DateContext)
        (amount : Int) (r : String) (tm : Time) (v : DateValue),
        univ.lookup r = some v →
      ∃ msg, Node.resolve (.delta true amount r (some tm)) fuel univ ctx
        = some (.error (.validationError msg))) := by
  refine ⟨?_, ?_, ?_, ?_, ?_, ?_⟩
  · intro fuel univ ctx r t h
    simp [Node.resolve, h]
  · intro fuel univ ctx isHours amount r t h
    simp [Node.resolve, h]
  · intro fuel univ ctx days boa r t h
    simp [Node.resolve, h]
  · intro fuel univ ctx day wk t h
    simp [Node.resolve, h]
  · intro fuel univ ctx amount r t d h
    simp [Node.resolve, h, DateValue.addHours, DateValue.isPlainDate]
  · intro fuel univ ctx amount r tm v h
    cases v with
    | date d =>
      exact ⟨hoursDateMsg, by simp [Node.resolve, h, DateValue.addHours, DateValue.isPlainDate]⟩
    | datetime d t =>
      exact ⟨hoursTimeMsg, by simp [Node.resolve, h, DateValue.addHours, DateValue.isPlainDate]⟩

/-- Witness for C3 at concrete inputs: an empty environment, an anchorless
context, and a date-valued referent with an hours delta. -/
theorem c3_evaluate_failures_witness :
    (Node.resolve (.direct ("due") none) 9 [] ⟨none, none⟩
      = some (.error (.validationError (unknownFieldMsg ("due"))))) ∧
    (Node.resolve (.dayOfGivenWeek 1 2 none) 9 [] ⟨none, none⟩
      = some (.error (.validationError weekOneMsg))) ∧
    (Node.resolve (.delta true (-3) ("due") none) 9
        [(("due"), .date (mkDate 2020 12 15))] ⟨none, none⟩
      = some (.error (.validationError hoursDateMsg))) ∧
    (∃ msg, Node.resolve (.delta true 3 ("due") (some ⟨23, 0, 0⟩)) 9
        [(("due"), .datetime (mkDate 2020 12 15) ⟨0, 0, 0⟩)] ⟨none, none⟩
      = some (.error (.validationError msg))) :=
  ⟨c3_evaluate_failures.1 9 [] ⟨none, none⟩ ("due") none rfl,
   c3_evaluate_failures.2.2.2.1 9 [] ⟨none, none⟩ 1 2 none rfl,
   c3_evaluate_failures.2.2.2.2.1 9 [(("due"), .date (mkDate 2020 12 15))] ⟨none, none⟩
     (-3) ("due") none (mkDate 2020 12 15) rfl,
   c3_evaluate_failures.2.2.2.2.2 9 [(("due"), .datetime (mkDate 2020 12 15) ⟨0, 0, 0⟩)]
     ⟨none, none⟩ 3 ("due") ⟨23, 0, 0⟩ (.datetime (mkDate 2020 12 15) ⟨0, 0, 0⟩) rfl⟩


/-! ## Topological-sort invariants -/

theorem Before_append_left (fresh bl : List String) (v c : String) (h : Before bl v c) :
    Before (fresh ++ bl) v c := by
  obtain ⟨p, q, hbl, hc⟩ := h
  exact ⟨fresh ++ p, q, by rw [hbl, List.append_assoc], hc⟩

theorem Before_cons (u : String) (bl : List String) (v c : String) (h : Before bl v c) :
    Before (u :: bl) v c :=
  Before_append_left [u] bl v c h

theorem Before_head (u c : String) (bl : List String) (hc : c ∈ bl) :
    Before (u :: bl) u c :=
  ⟨[], bl, rfl, hc⟩

theorem lookup_mem {A B : Type} [BEq A] [LawfulBEq A] (l : List (A × B)) (a : A) (b : B)
    (h : l.lookup a = some b) : (a, b) ∈ l := by
  induction l with
  | nil => exact absurd h (by simp [List.lookup])
  | cons kv rest ih =>
    by_cases hk : (a == kv.1) = true
    · have ha : a = kv.1 := eq_of_beq hk
      simp only [List.lookup, hk] at h
      injection h with hb
      exact List.mem_cons.mpr (Or.inl (by rw [ha, ← hb]))
    · have hk2 : (a == kv.1) = false := by
        cases hbe : (a == kv.1)
        · rfl
        · exact absurd hbe hk
      simp only [List.lookup, hk2] at h
      right
      exact ih h

theorem lookup_isSome_mem {A B : Type} [BEq A] [LawfulBEq A] (l : List (A × B)) (a : A)
    (h : (l.lookup a).isSome = true) : a ∈ l.map Prod.fst := by
  cases hl : l.lookup a with
  | none => rw [hl] at h; exact absurd h (by simp)
  | some b => exact List.mem_map_of_mem Prod.fst (lookup_mem l a b hl)

theorem childrenOf_mem (nodes : List (String × Node)) (a b : String) (n : Node)
    (hmem : (a, n) ∈ nodes) (hrel : n.relativeTo? = some b) :
    a ∈ childrenOf nodes b := by
  unfold childrenOf
  rw [List.mem_filterMap]
  exact ⟨(a, n), hmem, by simp [hrel]⟩

theorem childrenOf_subset (nodes : List (String × Node)) (b c : String)
    (h : c ∈ childrenOf nodes b) : c ∈ nodes.map Prod.fst := by
  unfold childrenOf at h
  rw [List.mem_filterMap] at h
  obtain ⟨kn, hkn, hc⟩ := h
  cases hr : kn.2.relativeTo? with
  | none => simp only [hr] at hc; exact absurd hc (by simp)
  | some r =>
    simp only [hr] at hc
    by_cases hrb : r = b
    · simp only [hrb, if_true] at hc
      injection hc with hc2
      rw [← hc2]
      exact List.mem_map_of_mem Prod.fst hkn
    · simp [hrb] at hc

/-- Invariant carried through one pass over a child list.  `vis` is the
recursive visit (with the same on-stack set `gray`); its specification is
the induction hypothesis of `visitFuel_ok_inv`. -/
theorem childFold_ok_inv (nodes : List (String × Node))
    (vis : String → List String → Except PubError (List String)) (gray : List String)
    (hvis : ∀ c black bl, vis c black = .ok bl → c ∉ gray → c ∉ black →
      black.Nodup → ChildOk nodes black →
      ∃ fresh, bl = fresh ++ black ∧ c ∈ fresh ∧ (∀ x ∈ fresh, x ∉ gray) ∧
        bl.Nodup ∧ ChildOk nodes bl) :
    ∀ (cs : List String) (black bl : List String),
      childFold vis gray cs black = .ok bl →
      black.Nodup → ChildOk nodes black →
      ∃ fresh, bl = fresh ++ black ∧ (∀ x ∈ fresh, x ∉ gray) ∧
        bl.Nodup ∧ ChildOk nodes bl ∧ ∀ c ∈ cs, c ∈ bl := by
  intro cs
  induction cs with
  | nil =>
    intro black bl h hnd hco
    rw [childFold] at h
    injection h with hb
    exact ⟨[], by simp [← hb], by simp, by rw [← hb]; exact hnd, by rw [← hb]; exact hco,
      by simp⟩
  | cons c cs ih =>
    intro black bl h hnd hco
    rw [childFold] at h
    by_cases h1 : c ∈ gray
    · rw [if_pos h1] at h
      exact Except.noConfusion h
    · rw [if_neg h1] at h
      by_cases h2 : c ∈ black
      · rw [if_pos h2] at h
        obtain ⟨fresh, hbl, hfg, hnd2, hco2, hcs⟩ := ih black bl h hnd hco
        refine ⟨fresh, hbl, hfg, hnd2, hco2, ?_⟩
        intro x hx
        rcases List.mem_cons.mp hx with hx | hx
        · subst hx
          rw [hbl]
          exact List.mem_append_right fresh h2
        · exact hcs x hx
      · rw [if_neg h2] at h
        cases hv : vis c black with
        | error e => rw [hv] at h; exact Except.noConfusion h
        | ok black2 =>
          rw [hv] at h
          obtain ⟨fresh1, hblack2, hcf1, hf1g, hnd2, hco2⟩ := hvis c black black2 hv h1 h2 hnd hco
          obtain ⟨fresh2, hbl, hf2g, hnd3, hco3, hcs⟩ := ih black2 bl h hnd2 hco2
          refine ⟨fresh2 ++ fresh1, ?_, ?_, hnd3, hco3, ?_⟩
          · rw [hbl, hblack2, List.append_assoc]
          · intro x hx
            rcases List.mem_append.mp hx with hx | hx
            · exact hf2g x hx
            · exact hf1g x hx
          · intro x hx
            rcases List.mem_cons.mp hx with hx | hx
            · subst hx
              rw [hbl, hblack2]
              exact List.mem_append_right fresh2 (List.mem_append_left black hcf1)
            · exact hcs x hx

/-- Invariant of a depth-first visit: on success it extends the finished
list by fresh nodes (the visited one among them), none of the fresh nodes
was on the stack, no node finishes twice, and every finished node's
children finish strictly earlier. -/
theorem visitFuel_ok_inv (nodes : List (String × Node)) :
    ∀ (f : Nat) (u : String) (gray black bl : List String),
      visitFuel nodes f u gray black = .ok bl →
      u ∉ gray → u ∉ black → black.Nodup → ChildOk nodes black →
      ∃ fresh, bl = fresh ++ black ∧ u ∈ fresh ∧ (∀ x ∈ fresh, x ∉ gray) ∧
        bl.Nodup ∧ ChildOk nodes bl := by
  intro f
  induction f with
  | zero =>
    intro u gray black bl h
    exact absurd h (by rw [visitFuel]; simp)
  | succ f ih =>
    intro u gray black bl h hg hb hnd hco
    rw [visitFuel] at h
    cases hcf : childFold (fun c bl => visitFuel nodes f c (u :: gray) bl) (u :: gray)
        (childrenOf nodes u) black with
    | error e => rw [hcf] at h; exact Except.noConfusion h
    | ok black2 =>
      rw [hcf] at h
      injection h with hb2
      have hvis : ∀ c black3 bl3, visitFuel nodes f c (u :: gray) black3 = .ok bl3 →
          c ∉ (u :: gray) → c ∉ black3 → black3.Nodup → ChildOk nodes black3 →
          ∃ fresh, bl3 = fresh ++ black3 ∧ c ∈ fresh ∧ (∀ x ∈ fresh, x ∉ (u :: gray)) ∧
            bl3.Nodup ∧ ChildOk nodes bl3 :=
        fun c black3 bl3 hok hcg hcb hnd3 hco3 => ih c (u :: gray) black3 bl3 hok hcg hcb hnd3 hco3
      obtain ⟨fresh, hblack2, hfg, hnd2, hco2, hch⟩ :=
        childFold_ok_inv nodes _ (u :: gray) hvis (childrenOf nodes u) black black2 hcf hnd hco
      have hufresh : u ∉ fresh := fun hx => (hfg u hx) (by simp)
      have hub2 : u ∉ black2 := by
        rw [hblack2]
        intro hx
        rcases List.mem_append.mp hx with hx | hx
        · exact hufresh hx
        · exact hb hx
      refine ⟨u :: fresh, ?_, by simp, ?_, ?_, ?_⟩
      · rw [← hb2, hblack2]
        rfl
      · intro x hx
        rcases List.mem_cons.mp hx with hx | hx
        · subst hx
          exact hg
        · exact fun hxg => (hfg x hx) (List.mem_cons_of_mem u hxg)
      · rw [← hb2]
        exact List.nodup_cons.mpr ⟨hub2, hnd2⟩
      · rw [← hb2]
        intro v hv c hc
        rcases List.mem_cons.mp hv with hv | hv
        · subst hv
          exact Before_head v c black2 (hch c hc)
        · exact Before_cons u black2 v c (hco2 v hv c hc)

/-- Invariant of the top-level loop: the final finished list is
duplicate-free, child-closed, and contains every processed key. -/
theorem visitAll_ok_inv (nodes : List (String × Node)) (fuel : Nat) :
    ∀ (ks black bl : List String),
      visitAll nodes fuel ks black = .ok bl →
      black.Nodup → ChildOk nodes black →
      bl.Nodup ∧ ChildOk nodes bl ∧ (∀ x ∈ black, x ∈ bl) ∧ ∀ k ∈ ks, k ∈ bl := by
  intro ks
  induction ks with
  | nil =>
    intro black bl h hnd hco
    rw [visitAll] at h
    injection h with hb
    exact ⟨by rw [← hb]; exact hnd, by rw [← hb]; exact hco, by rw [hb]; exact fun x hx => hx,
      by simp⟩
  | cons k ks ih =>
    intro black bl h hnd hco
    rw [visitAll] at h
    by_cases hk : k ∈ black
    · rw [if_pos hk] at h
      obtain ⟨hnd2, hco2, hsub, hks⟩ := ih black bl h hnd hco
      exact ⟨hnd2, hco2, hsub, fun x hx => by
        rcases List.mem_cons.mp hx with hx | hx
        · subst hx; exact hsub x hk
        · exact hks x hx⟩
    · rw [if_neg hk] at h
      cases hv : visitFuel nodes fuel k [] black with
      | error e => rw [hv] at h; exact Except.noConfusion h
      | ok black2 =>
        rw [hv] at h
        obtain ⟨fresh, hblack2, hkf, _, hnd2, hco2⟩ :=
          visitFuel_ok_inv nodes fuel k [] black black2 hv (by simp) hk hnd hco
        obtain ⟨hnd3, hco3, hsub, hks⟩ := ih black2 bl h hnd2 hco2
        have hbsub : ∀ x ∈ black, x ∈ black2 := by
          intro x hx
          rw [hblack2]
          exact List.mem_append_right fresh hx
        refine ⟨hnd3, hco3, fun x hx => hsub x (hbsub x hx), ?_⟩
        intro x hx
        rcases List.mem_cons.mp hx with hx | hx
        · subst hx
          exact hsub x (by rw [hblack2]; exact List.mem_append_left black hkf)
        · exact hks x hx

/-- A successful sort's output is the child-closed finished list,
filtered to the batch keys, and contains every batch key. -/
theorem topologicalSort_ok_inv (nodes : List (String × Node)) (order : List String)
    (h : topologicalSort nodes = .ok order) :
    ∃ black, order = black.filter (fun x => (nodes.lookup x).isSome) ∧
      black.Nodup ∧ ChildOk nodes black ∧ ∀ k ∈ nodes.map Prod.fst, k ∈ black := by
  unfold topologicalSort at h
  cases hva : visitAll nodes (nodes.length + 1) (nodes.map Prod.fst) [] with
  | error e => rw [hva] at h; exact Except.noConfusion h
  | ok black =>
    rw [hva] at h
    injection h with hb
    obtain ⟨hnd, hco, _, hks⟩ := visitAll_ok_inv nodes (nodes.length + 1)
      (nodes.map Prod.fst) [] black hva (by simp) (by intro v hv; exact absurd hv (by simp))
    exact ⟨black, hb.symm, hnd, hco, hks⟩

/-- Errors escaping `childFold` are cycle reports or come from the
recursive visits. -/
theorem childFold_error_shape (vis : String → List String → Except PubError (List String))
    (gray : List String)
    (hvis : ∀ c black e, vis c black = .error e →
      e = .modelFuel ∨ e = .validationError cycleMsg) :
    ∀ (cs : List String) (black : List String) (e : PubError),
      childFold vis gray cs black = .error e →
      e = .modelFuel ∨ e = .validationError cycleMsg := by
  intro cs
  induction cs with
  | nil =>
    intro black e h
    rw [childFold] at h
    exact Except.noConfusion h
  | cons c cs ih =>
    intro black e h
    rw [childFold] at h
    by_cases h1 : c ∈ gray
    · rw [if_pos h1] at h
      injection h with he
      right
      rw [← he]
    · rw [if_neg h1] at h
      by_cases h2 : c ∈ black
      · rw [if_pos h2] at h
        exact ih black e h
      · rw [if_neg h2] at h
        cases hv : vis c black with
        | error e2 =>
          rw [hv] at h
          injection h with he
          rw [← he]
          exact hvis c black e2 hv
        | ok black2 =>
          rw [hv] at h
          exact ih black2 e h

/-- Errors escaping a visit are fuel exhaustion or cycle reports. -/
theorem visitFuel_error_shape (nodes : List (String × Node)) :
    ∀ (f : Nat) (u : String) (gray black : List String) (e : PubError),
      visitFuel nodes f u gray black = .error e →
      e = .modelFuel ∨ e = .validationError cycleMsg := by
  intro f
  induction f with
  | zero =>
    intro u gray black e h
    rw [visitFuel] at h
    injection h with he
    left
    rw [← he]
  | succ f ih =>
    intro u gray black e h
    rw [visitFuel] at h
    cases hcf : childFold (fun c bl => visitFuel nodes f c (u :: gray) bl) (u :: gray)
        (childrenOf nodes u) black with
    | error e2 =>
      rw [hcf] at h
      injection h with he
      rw [← he]
      exact childFold_error_shape _ (u :: gray)
        (fun c black3 e3 hv => ih c (u :: gray) black3 e3 hv)
        (childrenOf nodes u) black e2 hcf
    | ok black2 =>
      rw [hcf] at h
      exact Except.noConfusion h

/-- Errors escaping the top-level loop have the same shape. -/
theorem visitAll_error_shape (nodes : List (String × Node)) (fuel : Nat) :
    ∀ (ks black : List String) (e : PubError),
      visitAll nodes fuel ks black = .error e →
      e = .modelFuel ∨ e = .validationError cycleMsg := by
  intro ks
  induction ks with
  | nil =>
    intro black e h
    rw [visitAll] at h
    exact Except.noConfusion h
  | cons k ks ih =>
    intro black e h
    rw [visitAll] at h
    by_cases hk : k ∈ black
    · rw [if_pos hk] at h
      exact ih black e h
    · rw [if_neg hk] at h
      cases hv : visitFuel nodes fuel k [] black with
      | error e2 =>
        rw [hv] at h
        injection h with he
        rw [← he]
        exact visitFuel_error_shape nodes fuel k [] black e2 hv
      | ok black2 =>
        rw [hv] at h
        exact ih black2 e h

theorem nodup_length_le_card (l keys : List String) (hnd : l.Nodup)
    (hsub : ∀ x ∈ l, x ∈ keys) : l.length ≤ keys.toFinset.card := by
  have h1 : l.toFinset.card = l.length := List.toFinset_card_of_nodup hnd
  have h2 : l.toFinset ⊆ keys.toFinset := by
    intro x hx
    rw [List.mem_toFinset] at hx ⊢
    exact hsub x hx
  calc l.length = l.toFinset.card := h1.symm
    _ ≤ keys.toFinset.card := Finset.card_le_card h2

/-- The child pass cannot run out of budget unless a recursive visit
does. -/
theorem childFold_ne_modelFuel (vis : String → List String → Except PubError (List String))
    (gray : List String) :
    ∀ (cs : List String),
      (∀ c ∈ cs, ∀ black, c ∉ gray → c ∉ black → vis c black ≠ .error .modelFuel) →
      ∀ (black : List String), childFold vis gray cs black ≠ .error .modelFuel := by
  intro cs
  induction cs with
  | nil =>
    intro _ black h
    rw [childFold] at h
    exact Except.noConfusion h
  | cons c cs ih =>
    intro hvis black h
    rw [childFold] at h
    by_cases h1 : c ∈ gray
    · rw [if_pos h1] at h
      injection h with he
      exact PubError.noConfusion he
    · rw [if_neg h1] at h
      by_cases h2 : c ∈ black
      · rw [if_pos h2] at h
        exact ih (fun x hx => hvis x (List.mem_cons_of_mem c hx)) black h
      · rw [if_neg h2] at h
        cases hv : vis c black with
        | error e =>
          rw [hv] at h
          injection h with he
          rw [he] at hv
          exact hvis c (by simp) black h1 h2 hv
        | ok black2 =>
          rw [hv] at h
          exact ih (fun x hx => hvis x (List.mem_cons_of_mem c hx)) black2 h

/-- A visit started with budget at least the number of distinct keys not
yet on the stack never exhausts its budget: the stack grows strictly with
depth and stays within the key set. -/
theorem visitFuel_ne_modelFuel (nodes : List (String × Node)) :
    ∀ (f : Nat) (u : String) (gray black : List String),
      u ∈ nodes.map Prod.fst → u ∉ gray → gray.Nodup →
      (∀ x ∈ gray, x ∈ nodes.map Prod.fst) →
      (nodes.map Prod.fst).toFinset.card ≤ f + gray.length →
      visitFuel nodes f u gray black ≠ .error .modelFuel := by
  intro f
  induction f with
  | zero =>
    intro u gray black hu hg hgnd hgsub hcard
    exfalso
    have h1 : (u :: gray).Nodup := List.nodup_cons.mpr ⟨hg, hgnd⟩
    have h2 : ∀ x ∈ u :: gray, x ∈ nodes.map Prod.fst := by
      intro x hx
      rcases List.mem_cons.mp hx with hx | hx
      · subst hx; exact hu
      · exact hgsub x hx
    have := nodup_length_le_card (u :: gray) (nodes.map Prod.fst) h1 h2
    simp only [List.length_cons] at this
    omega
  | succ f ih =>
    intro u gray black hu hg hgnd hgsub hcard h
    rw [visitFuel] at h
    cases hcf : childFold (fun c bl => visitFuel nodes f c (u :: gray) bl) (u :: gray)
        (childrenOf nodes u) black with
    | error e =>
      rw [hcf] at h
      injection h with he
      rw [he] at hcf
      refine childFold_ne_modelFuel _ (u :: gray) (childrenOf nodes u) ?_ black hcf
      intro c hc black2 hcg hcb
      refine ih c (u :: gray) black2 (childrenOf_subset nodes u c hc) hcg
        (List.nodup_cons.mpr ⟨hg, hgnd⟩) ?_ ?_
      · intro x hx
        rcases List.mem_cons.mp hx with hx | hx
        · subst hx; exact hu
        · exact hgsub x hx
      · simp only [List.length_cons]
        omega
    | ok black2 =>
      rw [hcf] at h
      exact Except.noConfusion h

theorem visitAll_ne_modelFuel (nodes : List (String × Node)) (fuel : Nat)
    (hf : (nodes.map Prod.fst).toFinset.card ≤ fuel) :
    ∀ (ks black : List String), (∀ k ∈ ks, k ∈ nodes.map Prod.fst) →
      visitAll nodes fuel ks black ≠ .error .modelFuel := by
  intro ks
  induction ks with
  | nil =>
    intro black _ h
    rw [visitAll] at h
    exact Except.noConfusion h
  | cons k ks ih =>
    intro black hks h
    rw [visitAll] at h
    by_cases hk : k ∈ black
    · rw [if_pos hk] at h
      exact ih black (fun x hx => hks x (List.mem_cons_of_mem k hx)) h
    · rw [if_neg hk] at h
      cases hv : visitFuel nodes fuel k [] black with
      | error e =>
        rw [hv] at h
        injection h with he
        rw [he] at hv
        exact visitFuel_ne_modelFuel nodes fuel k [] black (hks k (by simp)) (by simp)
          List.nodup_nil (by simp) (by simpa using hf) hv
      | ok black2 =>
        rw [hv] at h
        exact ih black2 (fun x hx => hks x (List.mem_cons_of_mem k hx)) h

/-- The only error `_topological_sort` can raise is the cycle report. -/
theorem topologicalSort_error_shape (nodes : List (String × Node)) (e : PubError)
    (h : topologicalSort nodes = .error e) : e = .validationError cycleMsg := by
  unfold topologicalSort at h
  cases hva : visitAll nodes (nodes.length + 1) (nodes.map Prod.fst) [] with
  | error e2 =>
    rw [hva] at h
    injection h with he
    rw [← he]
    rcases visitAll_error_shape nodes (nodes.length + 1) (nodes.map Prod.fst) [] e2 hva with
      hmf | hcy
    · exfalso
      rw [hmf] at hva
      refine visitAll_ne_modelFuel nodes (nodes.length + 1) ?_ (nodes.map Prod.fst) []
        (fun k hk => hk) hva
      calc (nodes.map Prod.fst).toFinset.card ≤ (nodes.map Prod.fst).length :=
            List.toFinset_card_le (nodes.map Prod.fst)
        _ = nodes.length := List.length_map nodes Prod.fst
        _ ≤ nodes.length + 1 := by omega
    · exact hcy
  | ok black =>
    rw [hva] at h
    exact Except.noConfusion h

theorem posIn_lt_of_before :
    ∀ (p q : List String) (v c : String), (p ++ v :: q).Nodup → c ∈ q →
      posIn v (p ++ v :: q) < posIn c (p ++ v :: q) := by
  intro p
  induction p with
  | nil =>
    intro q v c hnd hc
    have hnd2 := List.nodup_cons.mp (by simpa using hnd)
    have hne : v ≠ c := by
      intro hcv
      exact hnd2.1 (hcv ▸ hc)
    simp only [List.nil_append, posIn]
    rw [if_pos trivial, if_neg hne]
    omega
  | cons a p ih =>
    intro q v c hnd hc
    have h0 : ((a :: p) ++ v :: q) = a :: (p ++ v :: q) := rfl
    have hnd2 := List.nodup_cons.mp (h0 ▸ hnd)
    have hav : a ≠ v := by
      intro h
      exact hnd2.1 (h ▸ List.mem_append_right p (by simp))
    have hac : a ≠ c := by
      intro h
      exact hnd2.1 (h ▸ List.mem_append_right p (List.mem_cons_of_mem v hc))
    rw [h0, posIn, posIn, if_neg hav, if_neg hac]
    have := ih q v c hnd2.2 hc
    omega

/-- With a child-closed, duplicate-free finished list covering the keys,
every dependency edge strictly decreases the finish position. -/
theorem pos_decreasing (nodes : List (String × Node)) (black : List String)
    (hnd : black.Nodup) (hco : ChildOk nodes black)
    (hkeys : ∀ k ∈ nodes.map Prod.fst, k ∈ black) :
    ∀ a b, DepEdge nodes a b → posIn b black < posIn a black := by
  rintro a b ⟨hrel, hbsome⟩
  cases hla : nodes.lookup a with
  | none =>
    rw [hla] at hrel
    exact absurd hrel (by simp)
  | some n =>
    rw [hla] at hrel
    have hmemb : b ∈ black := hkeys b (lookup_isSome_mem nodes b hbsome)
    have hchild : a ∈ childrenOf nodes b :=
      childrenOf_mem nodes a b n (lookup_mem nodes a n hla) (by simpa using hrel)
    obtain ⟨p, q, hbl, hcq⟩ := hco b hmemb a hchild
    rw [hbl] at hnd ⊢
    exact posIn_lt_of_before p q b a hnd hcq

/-- Along a dependency chain, the finish position of the last element is
at most that of the first. -/
theorem chain_pos_le (nodes : List (String × Node)) (black : List String)
    (hnd : black.Nodup) (hco : ChildOk nodes black)
    (hkeys : ∀ k ∈ nodes.map Prod.fst, k ∈ black) :
    ∀ (ks : List String) (k : String), List.Chain (DepEdge nodes) k ks →
      posIn ((k :: ks).getLast (by simp)) black ≤ posIn k black := by
  intro ks
  induction ks with
  | nil =>
    intro k _
    simp [List.getLast]
  | cons b ks ih =>
    intro k hch
    rw [List.chain_cons] at hch
    obtain ⟨hedge, hch2⟩ := hch
    have h1 := ih b hch2
    have h2 := pos_decreasing nodes black hnd hco hkeys k b hedge
    have h3 : (k :: b :: ks).getLast (by simp) = (b :: ks).getLast (by simp) :=
      List.getLast_cons (by simp)
    rw [h3]
    omega

/-- C2: for a batch whose rules induce a dependency cycle (each entry's
referent is itself a batch key, chained back to the start), `resolve`
raises the cycle error — independently of the context, so before any
rule is evaluated. -/
theorem c2_cycle_error (fuel : Nat) (smartDates : List (String × RawValue))
    (nodes : List (String × Node)) (k : String) (ks : List String) (dc : Option DateContext)
    (hparse : parseAll smartDates = .ok nodes)
    (hchain : List.Chain (DepEdge nodes) k ks)
    (hclose : DepEdge nodes ((k :: ks).getLast (by simp)) k) :
    resolveSmartDatesF fuel smartDates dc = some (.error (.validationError cycleMsg)) := by
  have htopo : topologicalSort nodes = .error (.validationError cycleMsg) := by
    cases hts : topologicalSort nodes with
    | error e =>
      rw [topologicalSort_error_shape nodes e hts]
    | ok order =>
      exfalso
      obtain ⟨black, _, hnd, hco, hkeys⟩ := topologicalSort_ok_inv nodes order hts
      have hlast := chain_pos_le nodes black hnd hco hkeys ks k hchain
      have hdec := pos_decreasing nodes black hnd hco hkeys _ k hclose
      omega
  simp only [resolveSmartDatesF, hparse, htopo]

/-- Witness for C2 at the spec's two-node cycle, `foo -> bar -> foo`. -/
theorem c2_cycle_error_witness :
    resolveSmartDatesF 9 [(("foo"), RawValue.str ("bar")), (("bar"), RawValue.str ("foo"))] none
      = some (.error (.validationError cycleMsg)) :=
  c2_cycle_error 9 [(("foo"), RawValue.str ("bar")), (("bar"), RawValue.str ("foo"))]
    [(("foo"), Node.direct ("bar") none), (("bar"), Node.direct ("foo") none)]
    ("foo") [("bar")] none (by decide)
    (List.Chain.cons (by decide) List.Chain.nil)
    (by decide)

/-! ## C9: every failure is a `ValidationError` -/

theorem stripTime_error_shape (s : List Char) (e : PubError)
    (h : stripTime s = .error e) : ∃ msg, e = .validationError msg := by
  unfold stripTime at h
  split at h
  next =>
    split at h
    next =>
      split at h
      next => exact Except.noConfusion h
      next => injection h with he; exact ⟨_, he.symm⟩
    next => exact Except.noConfusion h
  next => exact Except.noConfusion h

theorem parseDayName_error_shape (w : List Char) (e : PubError)
    (h : parseDayName w = .error e) : ∃ msg, e = .validationError msg := by
  unfold parseDayName at h
  repeat' split at h
  all_goals first
    | exact Except.noConfusion h
    | (injection h with he; exact ⟨_, he.symm⟩)

theorem parseDayNames_error_shape :
    ∀ (ws : List (List Char)) (e : PubError),
      parseDayNames ws = .error e → ∃ msg, e = .validationError msg := by
  intro ws
  induction ws with
  | nil =>
    intro e h
    exact Except.noConfusion h
  | cons w ws ih =>
    intro e h
    rw [parseDayNames] at h
    cases hw : parseDayName w with
    | error e2 =>
      rw [hw] at h
      simp only [Bind.bind, Except.bind] at h
      injection h with he
      rw [← he]
      exact parseDayName_error_shape w e2 hw
    | ok d =>
      rw [hw] at h
      simp only [Bind.bind, Except.bind] at h
      cases hws : parseDayNames ws with
      | error e2 =>
        rw [hws] at h
        injection h with he
        rw [← he]
        exact ih e2 hws
      | ok ds =>
        rw [hws] at h
        exact Except.noConfusion h

theorem directParse_error_shape (cs : List Char) (e : PubError)
    (h : directParse cs = .error e) : ∃ msg, e = .validationError msg := by
  unfold directParse at h
  cases hst : stripTime cs with
  | error e2 =>
    rw [hst] at h
    simp only [Bind.bind, Except.bind] at h
    injection h with he
    rw [← he]
    exact stripTime_error_shape cs e2 hst
  | ok p =>
    obtain ⟨rest, time⟩ := p
    rw [hst] at h
    simp only [Bind.bind, Except.bind] at h
    split at h <;> exact Except.noConfusion h

theorem deltaParse_error_shape (cs : List Char) (e : PubError)
    (h : deltaParse cs = .error e) : ∃ msg, e = .validationError msg := by
  unfold deltaParse at h
  cases hst : stripTime cs with
  | error e2 =>
    rw [hst] at h
    simp only [Bind.bind, Except.bind] at h
    injection h with he
    rw [← he]
    exact stripTime_error_shape cs e2 hst
  | ok p =>
    obtain ⟨rest, time⟩ := p
    rw [hst] at h
    simp only [Bind.bind, Except.bind] at h
    split at h
    · split at h <;> exact Except.noConfusion h
    · exact Except.noConfusion h

theorem firstAvailMatch_error_shape (tokens : List (List Char)) (time : Option Time)
    (e : PubError) (h : firstAvailMatch tokens time = .error e) :
    ∃ msg, e = .validationError msg := by
  unfold firstAvailMatch at h
  split at h
  next r dir revMost heq1 =>
    split at h
    next f middles heq2 =>
      split at h
      next hcond =>
        cases hd : parseDayNames (List.filter (fun w => decide (w ≠ [])) middles) with
        | error e2 =>
          simp only [hd] at h
          injection h with he
          rw [← he]
          exact parseDayNames_error_shape _ e2 hd
        | ok days =>
          simp only [hd] at h
          exact Except.noConfusion h
      next => exact Except.noConfusion h
    next => exact Except.noConfusion h
  next => exact Except.noConfusion h

theorem firstAvailableParse_error_shape (cs : List Char) (e : PubError)
    (h : firstAvailableParse cs = .error e) : ∃ msg, e = .validationError msg := by
  unfold firstAvailableParse at h
  cases hst : stripTime cs with
  | error e2 =>
    rw [hst] at h
    simp only [Bind.bind, Except.bind] at h
    injection h with he
    rw [← he]
    exact stripTime_error_shape cs e2 hst
  | ok p =>
    obtain ⟨rest, time⟩ := p
    rw [hst] at h
    simp only [Bind.bind, Except.bind] at h
    exact firstAvailMatch_error_shape _ time e h

theorem dayOfGivenWeekParse_error_shape (cs : List Char) (e : PubError)
    (h : dayOfGivenWeekParse cs = .error e) : ∃ msg, e = .validationError msg := by
  unfold dayOfGivenWeekParse at h
  cases hst : stripTime (lc cs) with
  | error e2 =>
    rw [hst] at h
    simp only [Bind.bind, Except.bind] at h
    injection h with he
    rw [← he]
    exact stripTime_error_shape (lc cs) e2 hst
  | ok p =>
    obtain ⟨rest, time⟩ := p
    rw [hst] at h
    simp only [Bind.bind, Except.bind] at h
    split at h
    · split at h
      · cases hd : parseDayName _ with
        | error e2 =>
          rw [hd] at h
          injection h with he
          rw [← he]
          exact parseDayName_error_shape _ e2 hd
        | ok d =>
          rw [hd] at h
          exact Except.noConfusion h
      · exact Except.noConfusion h
    · exact Except.noConfusion h

theorem parseNode_error_shape (raw : RawValue) (e : PubError)
    (h : parseNode raw = .error e) : ∃ msg, e = .validationError msg := by
  cases raw with
  | value v =>
    exact Except.noConfusion h
  | str s =>
    rw [parseNode] at h
    cases h1 : directParse s.data with
    | error e2 =>
      rw [h1] at h
      injection h with he
      rw [← he]
      exact directParse_error_shape s.data e2 h1
    | ok o1 =>
      rw [h1] at h
      cases o1 with
      | some n => exact Except.noConfusion h
      | none =>
        cases h2 : deltaParse s.data with
        | error e2 =>
          rw [h2] at h
          injection h with he
          rw [← he]
          exact deltaParse_error_shape s.data e2 h2
        | ok o2 =>
          rw [h2] at h
          cases o2 with
          | some n => exact Except.noConfusion h
          | none =>
            cases h3 : firstAvailableParse s.data with
            | error e2 =>
              rw [h3] at h
              injection h with he
              rw [← he]
              exact firstAvailableParse_error_shape s.data e2 h3
            | ok o3 =>
              rw [h3] at h
              cases o3 with
              | some n => exact Except.noConfusion h
              | none =>
                cases h4 : dayOfGivenWeekParse s.data with
                | error e2 =>
                  rw [h4] at h
                  injection h with he
                  rw [← he]
                  exact dayOfGivenWeekParse_error_shape s.data e2 h4
                | ok o4 =>
                  rw [h4] at h
                  cases o4 with
                  | some n => exact Except.noConfusion h
                  | none =>
                    injection h with he
                    exact ⟨_, he.symm⟩

theorem parseAll_error_shape :
    ∀ (sd : List (String × RawValue)) (e : PubError),
      parseAll sd = .error e → ∃ msg, e = .validationError msg := by
  intro sd
  induction sd with
  | nil =>
    intro e h
    exact Except.noConfusion h
  | cons kv rest ih =>
    intro e h
    rw [parseAll] at h
    cases hp : parseNode kv.2 with
    | error e2 =>
      rw [hp] at h
      simp only [Bind.bind, Except.bind] at h
      injection h with he
      rw [← he]
      exact parseNode_error_shape kv.2 e2 hp
    | ok n =>
      rw [hp] at h
      simp only [Bind.bind, Except.bind] at h
      cases hr : parseAll rest with
      | error e2 =>
        rw [hr] at h
        injection h with he
        rw [← he]
        exact ih e2 hr
      | ok ns =>
        rw [hr] at h
        exact Except.noConfusion h

theorem parseAll_keys :
    ∀ (sd : List (String × RawValue)) (nodes : List (String × Node)),
      parseAll sd = .ok nodes → nodes.map Prod.fst = sd.map Prod.fst := by
  intro sd
  induction sd with
  | nil =>
    intro nodes h
    rw [parseAll] at h
    injection h with hn
    rw [← hn]
    rfl
  | cons kv rest ih =>
    intro nodes h
    rw [parseAll] at h
    cases hp : parseNode kv.2 with
    | error e2 => rw [hp] at h; simp only [Bind.bind, Except.bind] at h; exact Except.noConfusion h
    | ok n =>
      rw [hp] at h
      simp only [Bind.bind, Except.bind] at h
      cases hr : parseAll rest with
      | error e2 => rw [hr] at h; exact Except.noConfusion h
      | ok ns =>
        rw [hr] at h
        injection h with hn
        rw [← hn]
        simp only [List.map_cons]
        rw [ih ns hr]

theorem nodeResolve_error_shape (n : Node) (fuel : Nat)
    (univ : List (String × DateValue)) (ctx : DateContext) (e : PubError)
    (h : Node.resolve n fuel univ ctx = some (.error e)) :
    ∃ msg, e = .validationError msg := by
  cases n <;> rw [Node.resolve] at h <;> repeat' split at h
  all_goals try simp only [] at h
  all_goals repeat' split at h
  all_goals first
    | (injection h with he; injection he with he2; exact ⟨_, he2.symm⟩)
    | (injection h with he; exact Except.noConfusion he)
    | exact Option.noConfusion h

theorem resolveList_error_shape (fuel : Nat) (nodes : List (String × Node))
    (ctx : DateContext) :
    ∀ (order : List String) (univ : List (String × DateValue)) (e : PubError),
      (∀ k ∈ order, (nodes.lookup k).isSome = true) →
      resolveList fuel nodes ctx order univ = some (.error e) →
      ∃ msg, e = .validationError msg := by
  intro order
  induction order with
  | nil =>
    intro univ e _ h
    rw [resolveList] at h
    injection h with he
    exact Except.noConfusion he
  | cons k ks ih =>
    intro univ e hsome h
    rw [resolveList] at h
    cases hl : nodes.lookup k with
    | none =>
      exact absurd (hsome k (by simp)) (by rw [hl]; simp)
    | some n =>
      simp only [hl] at h
      cases hr : Node.resolve n fuel univ ctx with
      | none => simp only [hr] at h; exact Option.noConfusion h
      | some res =>
        simp only [hr] at h
        cases res with
        | error e2 =>
          injection h with he
          injection he with he2
          rw [← he2]
          exact nodeResolve_error_shape n fuel univ ctx e2 hr
        | ok v =>
          exact ih ((k, v) :: univ) e (fun x hx => hsome x (List.mem_cons_of_mem k hx)) h

theorem lookup_cons_isSome {A B : Type} [BEq A] (k0 k : A) (v : B) (l : List (A × B))
    (h : (l.lookup k).isSome = true) : (((k0, v) :: l).lookup k).isSome = true := by
  rw [List.lookup]
  cases hk : k == k0
  · exact h
  · rfl

theorem resolveList_ok_lookup (fuel : Nat) (nodes : List (String × Node))
    (ctx : DateContext) :
    ∀ (order : List String) (univ univ2 : List (String × DateValue)),
      resolveList fuel nodes ctx order univ = some (.ok univ2) →
      ∀ k, (k ∈ order ∨ (univ.lookup k).isSome = true) → (univ2.lookup k).isSome = true := by
  intro order
  induction order with
  | nil =>
    intro univ univ2 h k hk
    rw [resolveList] at h
    injection h with he
    injection he with he2
    rcases hk with hk | hk
    · exact absurd hk (by simp)
    · rw [← he2]
      exact hk
  | cons k0 ks ih =>
    intro univ univ2 h k hk
    rw [resolveList] at h
    cases hl : nodes.lookup k0 with
    | none =>
      simp only [hl] at h
      injection h with he
      exact Except.noConfusion he
    | some n =>
      simp only [hl] at h
      cases hr : Node.resolve n fuel univ ctx with
      | none => simp only [hr] at h; exact Option.noConfusion h
      | some res =>
        simp only [hr] at h
        cases res with
        | error e2 =>
          injection h with he
          exact Except.noConfusion he
        | ok v =>
          refine ih ((k0, v) :: univ) univ2 h k ?_
          rcases hk with hk | hk
          · rcases List.mem_cons.mp hk with hk | hk
            · subst hk
              right
              rw [List.lookup]
              rw [show (k == k) = true from beq_self_eq_true k]
              rfl
            · left
              exact hk
          · right
            exact lookup_cons_isSome k0 k v univ hk

theorem lookupAllKeys_error :
    ∀ (l : List (String × RawValue)) (univ : List (String × DateValue)) (e : PubError),
      lookupAllKeys l univ = .error e →
      ∃ k, k ∈ l.map Prod.fst ∧ (univ.lookup k) = none := by
  intro l
  induction l with
  | nil =>
    intro univ e h
    exact Except.noConfusion h
  | cons kv rest ih =>
    intro univ e h
    rw [lookupAllKeys] at h
    cases hl : univ.lookup kv.1 with
    | none =>
      exact ⟨kv.1, by simp, hl⟩
    | some v =>
      rw [hl] at h
      simp only [Bind.bind, Except.bind] at h
      cases hrest : lookupAllKeys rest univ with
      | error e2 =>
        rw [hrest] at h
        obtain ⟨k, hk, hnone⟩ := ih univ e2 hrest
        exact ⟨k, List.mem_cons_of_mem kv.1 hk, hnone⟩
      | ok r =>
        rw [hrest] at h
        exact Except.noConfusion h

theorem mem_keys_lookup_isSome {A B : Type} [BEq A] [LawfulBEq A] :
    ∀ (l : List (A × B)) (k : A), k ∈ l.map Prod.fst → (l.lookup k).isSome = true := by
  intro l
  induction l with
  | nil =>
    intro k hk
    exact absurd hk (by simp)
  | cons kv rest ih =>
    intro k hk
    rw [List.lookup]
    cases hbe : k == kv.1 with
    | true => rfl
    | false =>
      simp only [List.map_cons, List.mem_cons] at hk
      rcases hk with hk | hk
      · exfalso
        rw [hk] at hbe
        rw [beq_self_eq_true] at hbe
        exact Bool.noConfusion hbe
      · exact ih k hk

/-- C9: every failure `resolve` surfaces — parse failures, dependency
cycles and evaluation failures alike — is the one `ValidationError`
class; there is no separate ParseError, CycleError or ResolutionError, so
a caller cannot distinguish the failure kinds by exception class. -/
theorem c9_single_error_class (fuel : Nat) (sd : List (String × RawValue))
    (dc : Option DateContext) (e : PubError)
    (h : resolveSmartDatesF fuel sd dc = some (.error e)) :
    ∃ msg, e = .validationError msg := by
  cases hp : parseAll sd with
  | error e2 =>
    simp only [resolveSmartDatesF, hp] at h
    injection h with he
    injection he with he2
    rw [← he2]
    exact parseAll_error_shape sd e2 hp
  | ok nodes =>
    cases ht : topologicalSort nodes with
    | error e2 =>
      simp only [resolveSmartDatesF, hp, ht] at h
      injection h with he
      injection he with he2
      rw [← he2]
      exact ⟨cycleMsg, topologicalSort_error_shape nodes e2 ht⟩
    | ok order =>
      obtain ⟨black, horder, hnd, hco, hkeys⟩ := topologicalSort_ok_inv nodes order ht
      have horder_some : ∀ k ∈ order, (nodes.lookup k).isSome = true := by
        intro k hk
        rw [horder] at hk
        exact (List.mem_filter.mp hk).2
      cases hr : resolveList fuel nodes (dc.getD ⟨none, none⟩) order
          ((dc.getD ⟨none, none⟩).known.getD []) with
      | none =>
        simp only [resolveSmartDatesF, hp, ht, hr] at h
        exact Option.noConfusion h
      | some res =>
        cases res with
        | error e2 =>
          simp only [resolveSmartDatesF, hp, ht, hr] at h
          injection h with he
          injection he with he2
          rw [← he2]
          exact resolveList_error_shape fuel nodes (dc.getD ⟨none, none⟩) order
            ((dc.getD ⟨none, none⟩).known.getD []) e2 horder_some hr
        | ok univ =>
          cases hlk : lookupAllKeys sd univ with
          | error e2 =>
            exfalso
            obtain ⟨k, hkmem, hknone⟩ := lookupAllKeys_error sd univ e2 hlk
            have hknodes : k ∈ nodes.map Prod.fst := by
              rw [parseAll_keys sd nodes hp]
              exact hkmem
            have hkorder : k ∈ order := by
              rw [horder]
              exact List.mem_filter.mpr ⟨hkeys k hknodes, mem_keys_lookup_isSome nodes k hknodes⟩
            have := resolveList_ok_lookup fuel nodes (dc.getD ⟨none, none⟩) order
              ((dc.getD ⟨none, none⟩).known.getD []) univ hr k (Or.inl hkorder)
            rw [hknone] at this
            exact Bool.noConfusion this
          | ok result =>
            simp only [resolveSmartDatesF, hp, ht, hr, hlk] at h
            injection h with he
            exact Except.noConfusion he

/-- Witness for C9 at the degenerate self-reference batch. -/
theorem c9_single_error_class_witness :
    ∃ msg, PubError.validationError cycleMsg = .validationError msg :=
  c9_single_error_class 9 [(("foo"), RawValue.str ("foo"))] none
    (.validationError cycleMsg) (by decide)
end Publish
